import Mathlib

/-!
Verification development for the voz-crawler repository
(src/voz_crawler/{cache,crawler,parser,graph,exceptions}.py).

The Python source is shallowly embedded:

* machine integers and Unix timestamps become `Int` (Python ints are
  unbounded; `time.time()` floats are modelled at integer resolution,
  which the TTL claims only compare by `≤`/`<`/`-`);
* the filesystem under the cache directory becomes an explicit map
  `FS := String → Option StoredFile` threaded through every operation;
* the JSON encode/decode of a cache file is abstracted into the sum type
  `StoredFile`: a decodable payload keeps its three fields (each
  optional, mirroring `dict.get`), an undecodable file is `corrupt`;
* the SHA-256-prefix filename fingerprint of `cache._key_path` is
  modelled as the key itself (`keyPath`); hash collisions of the
  truncated digest are not modelled;
* the HTTP transport (`cloudscraper`), the HTML parser (`parsel`) and
  `unicodedata.normalize NFC` are external libraries: the transport and
  the HTML-to-record extraction are oracles carried in `Ctx`, pagination
  labels and post bodies are abstracted to the strings/segments the
  Python code reads out of the markup, and NFC is modelled as the
  identity (`nfcModel`), which it is on the ASCII inputs considered;
* Python regular expressions (`_QUOTE_RE`, `_POST_ID_RE`, the page
  suffix pattern, the whitespace subs of `normalize_text`) are
  implemented character by character with the same
  leftmost/greedy/backtracking behaviour on the character classes they
  use; `\s`/`\d` are modelled by their ASCII parts, which is all the
  claims exercise.

Exceptions become the error enum `CrawlErr`; `CloudflareBlockedError`,
a subclass of `HTTPError` carrying status 403, is the `http _ _ true`
variant.
-/

/-- ASCII part of Python's str `\s` class (and of `str.strip`). -/
def pyIsSpace (c : Char) : Bool :=
  c = ' ' || c = '\t' || c = '\n' || c = '\r' || c = '\x0b' || c = '\x0c'

/-- Non-newline whitespace: the class `[^\S\n]` of `normalize_text`. -/
def isNNWS (c : Char) : Bool :=
  pyIsSpace c && c ≠ '\n'

/-- Match a literal character sequence at the head of a list, returning
the remainder on success. -/
def matchLit : List Char → List Char → Option (List Char)
  | [], l => some l
  | _ :: _, [] => none
  | p :: ps, c :: cs => if c = p then matchLit ps cs else none

/-- Python `str.strip()` on a character list. -/
def pyStripL (l : List Char) : List Char :=
  ((l.dropWhile pyIsSpace).reverse.dropWhile pyIsSpace).reverse

mutual

/-- State `re.sub("[^\S\n]+", " ", ·)`: normal state. -/
def collSp : List Char → List Char
  | [] => []
  | c :: cs => if isNNWS c then ' ' :: collSpSkip cs else c :: collSp cs

/-- State after emitting the single space for a run: swallow the rest
of the run. -/
def collSpSkip : List Char → List Char
  | [] => []
  | c :: cs => if isNNWS c then collSpSkip cs else c :: collSp cs

end

mutual

/-- State `re.sub("\n{3,}", "\n\n", ·)`: no pending newline. -/
def collNl0 : List Char → List Char
  | [] => []
  | c :: cs => if c = '\n' then collNl1 cs else c :: collNl0 cs

/-- One newline seen, none emitted yet. -/
def collNl1 : List Char → List Char
  | [] => ['\n']
  | c :: cs => if c = '\n' then collNl2 cs else '\n' :: c :: collNl0 cs

/-- Two newlines seen, none emitted yet. -/
def collNl2 : List Char → List Char
  | [] => ['\n', '\n']
  | c :: cs => if c = '\n' then collNl3 cs else '\n' :: '\n' :: c :: collNl0 cs

/-- Three or more newlines seen: the run collapses to exactly two. -/
def collNl3 : List Char → List Char
  | [] => ['\n', '\n']
  | c :: cs => if c = '\n' then collNl3 cs else '\n' :: '\n' :: c :: collNl0 cs

end

/-- Model of `unicodedata.normalize("NFC", ·)`.  NFC is the identity on
ASCII strings, which is the fragment the verified statements range
over; composed characters are not modelled. -/
def nfcModel (l : List Char) : List Char := l

/-- parser.normalize_text on character lists: NFC, collapse runs of
non-newline whitespace to one space, collapse runs of 3+ newlines to
two, strip. -/
def normalizeL (l : List Char) : List Char :=
  pyStripL (collNl0 (collSp (nfcModel l)))

/-- parser.normalize_text. -/
def normalize_text (s : String) : String :=
  ⟨normalizeL s.toList⟩

/-- Python `int(s)` on the strings fed to it by `parse_pagination`:
strip whitespace, optional sign, decimal digits; `None`/failure is
`none`.  (Underscore digit grouping, accepted by Python, is not
modelled; no pagination label uses it.) -/
def digitsVal (ds : List Char) : Option Nat :=
  if ds ≠ [] && ds.all Char.isDigit then
    some (ds.foldl (fun a c => a * 10 + (c.toNat - 48)) 0)
  else none

/-- Python `int` applied to a pagination label. -/
def pyInt (s : String) : Option Int :=
  match pyStripL s.toList with
  | '+' :: ds => (digitsVal ds).map Int.ofNat
  | '-' :: ds => (digitsVal ds).map (fun n => -(n : Int))
  | ds => (digitsVal ds).map Int.ofNat

/-- One row of the posts DataFrame consumed by graph.extract_reply_edges
(`pages_to_dataframe` keeps `post_id`, `username` and `content_text`
among others; these are the columns the graph code reads). -/
structure PostRow where
  post_id : String
  username : String
  content_text : String
deriving DecidableEq, Repr

/-- parser.PageData restricted to the fields the crawler claims
consume. -/
structure PageData where
  current_page : Int
  total_pages : Int
  posts : List PostRow
  thread_url : String
deriving DecidableEq, Repr

/-- The exception taxonomy of exceptions.py as a closed error enum.
`http s u true` is `CloudflareBlockedError(u)` (an `HTTPError` subclass
fixed at status 403); `http s u false` is a plain `HTTPError(s, u)`.
`cacheRead u` stands for `CacheReadError` raised for key `u`. -/
inductive CrawlErr where
  | network (msg : String)
  | http (status : Int) (url : String) (cloudflare : Bool)
  | threadNotFound (url : String)
  | pageParsing (url : String) (detail : String)
  | pageOutOfRange (page : Int) (maxPage : Int) (url : String)
  | cacheRead (url : String)
deriving DecidableEq, Repr

/-- A file in the cache directory: a decodable JSON payload (fields
optional, as `dict.get` treats them) or an undecodable one. -/
inductive StoredFile where
  | json (url : Option String) (cached_at : Option Int) (html : Option String)
  | corrupt
deriving DecidableEq, Repr

/-- The cache directory contents. -/
def FS : Type := String → Option StoredFile

/-- Write a file. -/
def fsSet (fs : FS) (p : String) (v : StoredFile) : FS :=
  fun q => if q = p then some v else fs q

/-- `Path.unlink`. -/
def fsErase (fs : FS) (p : String) : FS :=
  fun q => if q = p then none else fs q

/-- PageCache construction parameters (`cache_dir` itself is abstracted
away by `keyPath`). -/
structure CacheCfg where
  ttl : Int
  enabled : Bool

/-- cache._key_path: the truncated-SHA-256 filename is modelled by the
key itself (injective fingerprinting, collisions not modelled). -/
def keyPath (url : String) : String := url

/-- cache.PageCache.get: disabled or missing file is a miss; an
undecodable file raises `CacheReadError`; with positive TTL an entry
older than the TTL is unlinked and reported missing; otherwise the
`html` field is returned. -/
def PageCache.get (cfg : CacheCfg) (fs : FS) (now : Int) (url : String) :
    Except CrawlErr (Option String) × FS :=
  if !cfg.enabled then (.ok none, fs)
  else
    match fs (keyPath url) with
    | none => (.ok none, fs)
    | some .corrupt => (.error (.cacheRead url), fs)
    | some (.json _ cached_at html) =>
      if cfg.ttl > 0 && now - cached_at.getD 0 > cfg.ttl then
        (.ok none, fsErase fs (keyPath url))
      else
        (.ok html, fs)

/-- cache.PageCache.put: no-op when disabled, else write the payload
`{url, cached_at, html}`.  (`CacheWriteError` models an OS-level write
failure and is environmental; writes succeed in the model.) -/
def PageCache.put (cfg : CacheCfg) (fs : FS) (now : Int) (url : String) (html : String) : FS :=
  if !cfg.enabled then fs
  else fsSet fs (keyPath url) (.json (some url) (some now) (some html))

/-- An HTTP response as the crawler consumes it. -/
structure HttpResp where
  status : Int
  text : String
deriving DecidableEq, Repr

/-- Environment of a `VozCrawler`: cache configuration, the clock, the
`cloudscraper` transport (an oracle from URL to transport failure or
response) and `parse_thread_page` (an oracle from HTML and URL to a
parsing failure or a `PageData`). -/
structure Ctx where
  cfg : CacheCfg
  now : Int
  response : String → Except String HttpResp
  parse : String → String → Except CrawlErr PageData

/-- The cache consultation at the top of `fetch_html`: skipped entirely
when the caller opts out. -/
def cacheConsult (cfg : CacheCfg) (fs : FS) (now : Int) (url : String) (use_cache : Bool) :
    Except CrawlErr (Option String) × FS :=
  if use_cache then PageCache.get cfg fs now url else (.ok none, fs)

/-- crawler.VozCrawler.fetch_html: cache first (unless opted out), then
the network; 404 ⇒ `ThreadNotFoundError`, 403 ⇒
`CloudflareBlockedError`, other ≥ 400 ⇒ `HTTPError`; on success the
body is written to the cache unconditionally.  (The politeness throttle
only delays; it does not affect values and is not modelled.) -/
def fetch_html (γ : Ctx) (fs : FS) (url : String) (use_cache : Bool) :
    Except CrawlErr String × FS :=
  match cacheConsult γ.cfg fs γ.now url use_cache with
  | (.error e, fs') => (.error e, fs')
  | (.ok (some html), fs') => (.ok html, fs')
  | (.ok none, fs') =>
    match γ.response url with
    | .error msg => (.error (.network msg), fs')
    | .ok resp =>
      if resp.status = 404 then (.error (.threadNotFound url), fs')
      else if resp.status = 403 then (.error (.http 403 url true), fs')
      else if resp.status ≥ 400 then (.error (.http resp.status url false), fs')
      else (.ok resp.text, PageCache.put γ.cfg fs' γ.now url resp.text)

/-- Strip all trailing slashes: `str.rstrip("/")`. -/
def rstripSlashes (l : List Char) : List Char :=
  (l.reverse.dropWhile (fun c => c = '/')).reverse

/-- Drop one trailing `/page-<digits>` suffix:
`re.sub(r"/page-\d+/?$", "", ·)` applied after `rstrip("/")` (so the
optional trailing slash of the pattern can no longer occur). -/
def stripPageSuffix (l : List Char) : List Char :=
  if l.reverse.takeWhile Char.isDigit ≠ [] then
    match matchLit ['-', 'e', 'g', 'a', 'p', '/'] (l.reverse.dropWhile Char.isDigit) with
    | some base => base.reverse
    | none => l
  else l

/-- Normalised thread base: remove trailing slash, remove existing
`/page-N`. -/
def pageBaseL (l : List Char) : List Char :=
  stripPageSuffix (rstripSlashes l)

/-- crawler._build_page_url. -/
def build_page_url (thread_url : String) (page : Int) : String :=
  if page ≤ 1 then (⟨pageBaseL thread_url.toList⟩ : String) ++ "/"
  else (⟨pageBaseL thread_url.toList⟩ : String) ++ "/page-" ++ toString page

/-- crawler.VozCrawler.crawl_page: build the page URL, fetch (through
the cache), parse, then validate the requested page number against the
total reported inside the parsed content. -/
def crawl_page (γ : Ctx) (fs : FS) (thread_url : String) (page : Int) :
    Except CrawlErr PageData × FS :=
  match fetch_html γ fs (build_page_url thread_url page) true with
  | (.error e, fs') => (.error e, fs')
  | (.ok html, fs') =>
    match γ.parse html (build_page_url thread_url page) with
    | .error e => (.error e, fs')
    | .ok pd =>
      if page > pd.total_pages then
        (.error (.pageOutOfRange page pd.total_pages thread_url), fs')
      else (.ok pd, fs')

/-- The effective last page of `crawl_pages`: the requested end (or the
discovered total when the caller passed `None`), clamped to the
discovered total. -/
def effectiveLast (endPage : Option Int) (total : Int) : Int :=
  match endPage with
  | none => total
  | some e => if e > total then total else e

/-- The `for p in range(start_page + 1, last + 1)` loop of
`crawl_pages`, iteration count made explicit. -/
def crawlPagesLoop (γ : Ctx) (thread_url : String) :
    Nat → Int → FS → Except CrawlErr (List PageData) × FS
  | 0, _, fs => (.ok [], fs)
  | k + 1, p, fs =>
    match crawl_page γ fs thread_url p with
    | (.error e, fs') => (.error e, fs')
    | (.ok pd, fs') =>
      match crawlPagesLoop γ thread_url k (p + 1) fs' with
      | (.ok rest, fs'') => (.ok (pd :: rest), fs'')
      | (.error e, fs'') => (.error e, fs'')

/-- crawler.VozCrawler.crawl_pages: crawl the start page first to
discover the total, clamp the end, then crawl the remaining pages in
ascending order. -/
def crawl_pages (γ : Ctx) (fs : FS) (thread_url : String)
    (start_page : Int) (end_page : Option Int) :
    Except CrawlErr (List PageData) × FS :=
  match crawl_page γ fs thread_url start_page with
  | (.error e, fs') => (.error e, fs')
  | (.ok first, fs') =>
    match crawlPagesLoop γ thread_url
        (effectiveLast end_page first.total_pages - start_page).toNat
        (start_page + 1) fs' with
    | (.ok rest, fs'') => (.ok (first :: rest), fs'')
    | (.error e, fs'') => (.error e, fs'')

/-- parser.parse_pagination over the strings the CSS queries read from
the markup: `none` models a page with no `ul.pageNav-main`; otherwise
the pair is the text of the current-page entry and of the last
page-nav list item (each `""` when the query finds nothing, as
`.get("")` returns). -/
def parse_pagination (nav : Option (String × String)) : Int × Int :=
  match nav with
  | none => (1, 1)
  | some (current, last) =>
    let current_page := (pyInt current).getD 1
    let total_pages := (pyInt last).getD current_page
    (current_page, total_pages)

/-- parser.parse_thread_page with the per-article extraction
abstracted: raises `PageParsingError` when the page has no post
elements, otherwise pairs the pagination result with the posts. -/
def parse_thread_page (nav : Option (String × String)) (posts : List PostRow)
    (thread_url : String) : Except CrawlErr PageData :=
  if posts.isEmpty then .error (.pageParsing thread_url "No posts found on page")
  else .ok ⟨(parse_pagination nav).1, (parse_pagination nav).2, posts, thread_url⟩

/-- Match `_POST_ID_RE = re.compile(r"post:\s*(\d+)")` at the head of a
list: the literal `post:`, optional whitespace, then at least one
digit; return the digit group. -/
def matchPostIdAt (l : List Char) : Option (List Char) :=
  match matchLit ['p', 'o', 's', 't', ':'] l with
  | none => none
  | some r =>
    let r2 := r.dropWhile pyIsSpace
    let ds := r2.takeWhile Char.isDigit
    if ds = [] then none else some ds

/-- `_POST_ID_RE.search`: leftmost match anywhere in the string (fuel
is the list length, enough for the one-character scan step). -/
def postIdSearchAux : Nat → List Char → Option (List Char)
  | 0, _ => none
  | _ + 1, [] => none
  | fuel + 1, c :: cs =>
    match matchPostIdAt (c :: cs) with
    | some ds => some ds
    | none => postIdSearchAux fuel cs

/-- The `quote_post_id` read out of a `data-source` attribute: the
first `post: <digits>` group, or `[]` when the pattern never
matches. -/
def findPostIdL (l : List Char) : List Char :=
  (postIdSearchAux l.length l).getD []

/-- One flattened segment of a post body as parsel exposes it to
`_extract_content_with_quotes`: either a plain text node or a
`.bbCodeBlock--quote` block carrying its `data-quote` attribute, its
`data-source` attribute and the joined text of its content element.
(Bodies with quote blocks nested inside quote blocks are outside this
flat model.) -/
inductive BSeg where
  | btext (t : String)
  | bquote (dataQuote : String) (dataSource : String) (qtext : String)

/-- The `__QUOTE_PLACEHOLDER_{idx}__` sentinel. -/
def placeholderL (i : Nat) : List Char :=
  "__QUOTE_PLACEHOLDER_".toList ++ (Nat.repr i).toList ++ "__".toList

/-- The replacement string built for one quote block: strip the
`data-quote` author, resolve the quoted post id from `data-source`,
emit `<quote ...>` with each attribute present only when its value is
nonempty, around the normalized quoted text. -/
def buildReplacementL (dataQuote dataSource qtext : String) : List Char :=
  let author := pyStripL dataQuote.toList
  let pid := findPostIdL dataSource.toList
  let attrs : List (List Char) :=
    (if author ≠ [] then ["author=\"".toList ++ author ++ ['"']] else []) ++
    (if pid ≠ [] then ["post_id=\"".toList ++ pid ++ ['"']] else [])
  let attrStr := if attrs.isEmpty then [] else ' ' :: (attrs.intersperse [' ']).flatten
  "<quote".toList ++ attrStr ++ ['>'] ++ normalizeL qtext.toList ++ "</quote>".toList

/-- The text pieces of the placeholder-substituted body markup: text
nodes stay, each quote block becomes its sentinel (indexed in document
order). -/
def segPieces : Nat → List BSeg → List (List Char)
  | _, [] => []
  | i, .btext t :: rest => t.toList :: segPieces i rest
  | i, .bquote _ _ _ :: rest => placeholderL i :: segPieces (i + 1) rest

/-- The quote blocks of a body in document order. -/
def quoteList : List BSeg → List (String × String × String)
  | [] => []
  | .btext _ :: rest => quoteList rest
  | .bquote a s q :: rest => (a, s, q) :: quoteList rest

/-- Join text pieces with single spaces:
`" ".join(Selector(text=modified_html).css("::text").getall())`. -/
def intercalateL (sep : List Char) : List (List Char) → List Char
  | [] => []
  | [x] => x
  | x :: xs => x ++ sep ++ intercalateL sep xs

/-- Python `str.replace(pat, rep)` for a nonempty pattern: scan left to
right, replace non-overlapping occurrences, never rescanning the
replacement.  Fuel is the scanned length. -/
def replaceAllAux (pat rep : List Char) : Nat → List Char → List Char
  | 0, l => l
  | _ + 1, [] => []
  | fuel + 1, c :: cs =>
    match matchLit pat (c :: cs) with
    | some rest => rep ++ replaceAllAux pat rep fuel rest
    | none => c :: replaceAllAux pat rep fuel cs

/-- `str.replace` wrapper. -/
def replaceAllL (pat rep l : List Char) : List Char :=
  replaceAllAux pat rep l.length l

/-- The substitution loop
`for idx, replacement in enumerate(replacements): raw_text =
raw_text.replace(placeholder idx, "\n" + replacement + "\n")`. -/
def substAllL : Nat → List (List Char) → List Char → List Char
  | _, [], r => r
  | i, rep :: rest, r =>
    substAllL (i + 1) rest (replaceAllL (placeholderL i) ('\n' :: rep ++ ['\n']) r)

/-- parser._extract_content_with_quotes over a flat body: build the
replacement for every quote block, linearize the body with sentinels in
place of the blocks, substitute every sentinel by its line-break-
surrounded annotation, and normalize the whole text. -/
def extract_content_with_quotes (segs : List BSeg) : String :=
  let reps := (quoteList segs).map fun aq => buildReplacementL aq.1 aq.2.1 aq.2.2
  let rawText := intercalateL [' '] (segPieces 0 segs)
  ⟨normalizeL (substAllL 0 reps rawText)⟩

/-- graph.ReplyEdge. -/
structure ReplyEdge where
  from_post_id : String
  from_username : String
  to_post_id : String
  to_username : String
deriving DecidableEq, Repr

/-- Try `_QUOTE_RE = <quote\s+author="([^"]+)"(?:\s+post_id="(\d+)")?>`
at the head of the list, returning the two groups (the second `""` when
the optional part is absent, as `findall` reports an unmatched group)
and the remainder after the match.  The helper below is the optional
`\s+post_id="(\d+)"` group followed by the final `>`; failing it, the
engine backtracks to expecting `>` directly. -/
def quotePidOpt (r : List Char) : Option (List Char × List Char) :=
  if r.takeWhile pyIsSpace = [] then none
  else
    match matchLit "post_id=\"".toList (r.dropWhile pyIsSpace) with
    | none => none
    | some r2 =>
      let ds := r2.takeWhile Char.isDigit
      if ds = [] then none
      else
        match r2.dropWhile Char.isDigit with
        | '"' :: '>' :: r3 => some (ds, r3)
        | _ => none

/-- Attempt `_QUOTE_RE` at one position. -/
def quoteMatchAt (l : List Char) : Option ((String × String) × List Char) :=
  match matchLit "<quote".toList l with
  | none => none
  | some r1 =>
    if r1.takeWhile pyIsSpace = [] then none
    else
      match matchLit "author=\"".toList (r1.dropWhile pyIsSpace) with
      | none => none
      | some r2 =>
        let a := r2.takeWhile (fun c => c ≠ '"')
        if a = [] then none
        else
          match r2.dropWhile (fun c => c ≠ '"') with
          | '"' :: r4 =>
            match quotePidOpt r4 with
            | some (pid, r5) => some ((⟨a⟩, ⟨pid⟩), r5)
            | none =>
              match r4 with
              | '>' :: r6 => some ((⟨a⟩, ""), r6)
              | _ => none
          | _ => none

/-- `_QUOTE_RE.findall`: scan left to right, resuming after each
match. -/
def findQuotesAux : Nat → List Char → List (String × String)
  | 0, _ => []
  | _ + 1, [] => []
  | fuel + 1, c :: cs =>
    match quoteMatchAt (c :: cs) with
    | some (m, rest) => m :: findQuotesAux fuel rest
    | none => findQuotesAux fuel cs

/-- `_QUOTE_RE.findall` on a content string. -/
def findQuotes (s : String) : List (String × String) :=
  findQuotesAux s.length s.toList

/-- Insert with overwrite: `post_user_map[key] = value`. -/
def mapInsert (m : List (String × String)) (k v : String) : List (String × String) :=
  if m.any (fun kv => kv.1 = k) then
    m.map fun kv => if kv.1 = k then (k, v) else kv
  else m ++ [(k, v)]

/-- `key in post_user_map`. -/
def containsKey (m : List (String × String)) (k : String) : Bool :=
  m.any fun kv => kv.1 = k

/-- The `post_id → username` index built over the whole collection. -/
def postUserMap (rows : List PostRow) : List (String × String) :=
  rows.foldl (fun m r => mapInsert m r.post_id r.username) []

/-- graph.extract_reply_edges: scan every row's `content_text` with
`_QUOTE_RE`; skip self-quotes when asked; emit an edge when the matched
post id is nonempty and present in the index. -/
def extract_reply_edges (rows : List PostRow) (exclude_self_quotes : Bool) :
    List ReplyEdge :=
  let m := postUserMap rows
  rows.flatMap fun r =>
    (findQuotes r.content_text).filterMap fun aq =>
      if exclude_self_quotes && aq.1 = r.username then none
      else if aq.2 ≠ "" && containsKey m aq.2 then
        some ⟨r.post_id, r.username, aq.2, aq.1⟩
      else none

/-- A quotation annotation of the grammar of spec section 6 (the format
`_extract_content_with_quotes` emits): author and post_id each present
exactly when nonempty. -/
structure QAnnot where
  author : String
  pid : String
  qbody : String

/-- A reconstructed body is an interleaving of plain text and
annotations. -/
inductive Chunk where
  | raw (s : String)
  | ann (q : QAnnot)

/-- Render one annotation in the grammar's concrete syntax. -/
def renderAnnL (q : QAnnot) : List Char :=
  "<quote".toList ++
  (if q.author.toList ≠ [] then
    ' ' :: "author=\"".toList ++ q.author.toList ++ ['"'] else []) ++
  (if q.pid.toList ≠ [] then
    ' ' :: "post_id=\"".toList ++ q.pid.toList ++ ['"'] else []) ++
  ['>'] ++ q.qbody.toList ++ "</quote>".toList

/-- Render a body. -/
def renderChunksL : List Chunk → List Char
  | [] => []
  | .raw s :: rest => s.toList ++ renderChunksL rest
  | .ann q :: rest => renderAnnL q ++ renderChunksL rest

/-- Well-formedness of a body chunk: plain text and quoted text carry
no `<` (so they cannot open a tag), the author value carries no `"`
(its delimiter), and the post id is a digit string. -/
def WFChunk : Chunk → Prop
  | .raw s => ∀ c ∈ s.toList, c ≠ '<'
  | .ann q =>
    (∀ c ∈ q.author.toList, c ≠ '"') ∧
    (∀ c ∈ q.pid.toList, c.isDigit = true) ∧
    (∀ c ∈ q.qbody.toList, c ≠ '<')

/-- The attribute pairs of the annotations `_QUOTE_RE` can see: the
regex requires the author attribute, so author-less annotations
contribute nothing. -/
def bodyAnnots (chs : List Chunk) : List (String × String) :=
  chs.filterMap fun ch =>
    match ch with
    | .ann q => if q.author ≠ "" then some (q.author, q.pid) else none
    | .raw _ => none

/-- A post of the collection, its body given structurally. -/
structure SpecPost where
  post_id : String
  username : String
  body : List Chunk

/-- The DataFrame row of a structured post. -/
def toRow (p : SpecPost) : PostRow :=
  ⟨p.post_id, p.username, ⟨renderChunksL p.body⟩⟩

/-- The edges the specification predicts over a structured collection,
amended to annotations that carry an author attribute: an edge per
annotation whose post id is nonempty and belongs to some post of the
collection, unless self-quotes are excluded and the annotation's author
is the quoting post's author. -/
def specEdges (ps : List SpecPost) (exclude : Bool) : List ReplyEdge :=
  ps.flatMap fun p =>
    p.body.filterMap fun ch =>
      match ch with
      | .ann q =>
        if q.author ≠ "" && !(exclude && q.author = p.username) &&
            q.pid ≠ "" && ps.any (fun r => r.post_id = q.pid) then
          some ⟨p.post_id, p.username, q.pid, q.author⟩
        else none
      | .raw _ => none


/-! Generic helper lemmas about the character-level machinery. -/

theorem mk_toList (s : String) : (⟨s.toList⟩ : String) = s := by
  cases s; rfl

theorem toList_append (a b : String) : (a ++ b).toList = a.toList ++ b.toList := by
  cases a; cases b; rfl

theorem matchLit_self (p r : List Char) : matchLit p (p ++ r) = some r := by
  induction p with
  | nil => rfl
  | cons c cs ih => simp [matchLit, ih]

theorem matchLit_ne_head {p c : Char} (h : c ≠ p) (ps cs : List Char) :
    matchLit (p :: ps) (c :: cs) = none := by
  simp [matchLit, h]

theorem takeWhile_append_all {p : Char → Bool} {x : List Char}
    (h : ∀ c ∈ x, p c = true) (y : List Char) :
    (x ++ y).takeWhile p = x ++ y.takeWhile p := by
  induction x with
  | nil => rfl
  | cons c cs ih =>
    have hc : p c = true := h c (by simp)
    simp [List.takeWhile_cons, hc]
    exact ih (fun d hd => h d (by simp [hd]))

theorem dropWhile_append_all {p : Char → Bool} {x : List Char}
    (h : ∀ c ∈ x, p c = true) (y : List Char) :
    (x ++ y).dropWhile p = y.dropWhile p := by
  induction x with
  | nil => rfl
  | cons c cs ih =>
    have hc : p c = true := h c (by simp)
    simp [List.dropWhile_cons, hc]
    exact ih (fun d hd => h d (by simp [hd]))

theorem digitChar_isDigit {k : Nat} (h : k < 10) : (Nat.digitChar k).isDigit = true := by
  interval_cases k <;> decide

theorem toDigitsCore_digits :
    ∀ (fuel n : Nat) (acc : List Char), (∀ c ∈ acc, c.isDigit = true) →
      ∀ c ∈ Nat.toDigitsCore 10 fuel n acc, c.isDigit = true := by
  intro fuel
  induction fuel with
  | zero => intro n acc hacc; simpa [Nat.toDigitsCore] using hacc
  | succ f ih =>
    intro n acc hacc c hc
    have hd : (Nat.digitChar (n % 10)).isDigit = true :=
      digitChar_isDigit (Nat.mod_lt _ (by decide))
    have hacc' : ∀ d ∈ (Nat.digitChar (n % 10) :: acc), d.isDigit = true := by
      intro d hdm
      rw [List.mem_cons] at hdm
      cases hdm with
      | inl h => rw [h]; exact hd
      | inr h => exact hacc d h
    by_cases h0 : n / 10 = 0
    · rw [Nat.toDigitsCore, if_pos h0] at hc
      exact hacc' c hc
    · rw [Nat.toDigitsCore, if_neg h0] at hc
      exact ih (n / 10) (Nat.digitChar (n % 10) :: acc) hacc' c hc

theorem toDigitsCore_ne_nil :
    ∀ (fuel n : Nat) (acc : List Char), acc ≠ [] → Nat.toDigitsCore 10 fuel n acc ≠ [] := by
  intro fuel
  induction fuel with
  | zero => intro n acc hacc; simpa [Nat.toDigitsCore] using hacc
  | succ f ih =>
    intro n acc hacc
    by_cases h0 : n / 10 = 0
    · simp [Nat.toDigitsCore, h0]
    · simp only [Nat.toDigitsCore, h0, if_neg, if_false]
      exact ih (n / 10) _ (by simp)

theorem toDigits_ten_digits (k : Nat) : ∀ c ∈ Nat.toDigits 10 k, c.isDigit = true := by
  intro c hc
  exact toDigitsCore_digits (k + 1) k [] (by simp) c hc

theorem toDigits_ten_ne_nil (k : Nat) : Nat.toDigits 10 k ≠ [] := by
  show Nat.toDigitsCore 10 (k + 1) k [] ≠ []
  cases h0 : k / 10 with
  | zero => simp [Nat.toDigitsCore, h0]
  | succ m =>
    simp only [Nat.toDigitsCore, h0]
    exact toDigitsCore_ne_nil (k) _ _ (by simp)

theorem intToString_toList (k : Nat) :
    (toString (Int.ofNat k)).toList = Nat.toDigits 10 k := rfl

/-! Lemmas about the page-URL builder (crawler._build_page_url). -/

theorem rstrip_append_slash (l : List Char) :
    rstripSlashes (l ++ ['/']) = rstripSlashes l := by
  unfold rstripSlashes
  simp [List.dropWhile_cons]

theorem rstrip_eq_self_of_rev_head {l : List Char} {c : Char} {t : List Char}
    (hrev : l.reverse = c :: t) (hc : c ≠ '/') : rstripSlashes l = l := by
  unfold rstripSlashes
  rw [hrev, List.dropWhile_cons_of_neg (by simpa using hc), ← hrev, List.reverse_reverse]

theorem isDigit_ne_slash {c : Char} (h : c.isDigit = true) : c ≠ '/' := by
  intro he
  rw [he] at h
  exact absurd h (by decide)

theorem rev_cons_of_ne_nil {ds : List Char} (h : ds ≠ []) :
    ∃ c t, ds.reverse = c :: t ∧ c ∈ ds := by
  cases hrev : ds.reverse with
  | nil =>
    exact absurd (by simpa using congrArg List.reverse hrev) h
  | cons c t =>
    refine ⟨c, t, rfl, ?_⟩
    have : c ∈ ds.reverse := by rw [hrev]; simp
    simpa using this

theorem stripPage_append (b ds : List Char) (hne : ds ≠ [])
    (hdig : ∀ c ∈ ds, c.isDigit = true) :
    stripPageSuffix (b ++ '/' :: 'p' :: 'a' :: 'g' :: 'e' :: '-' :: ds) = b := by
  have hdigr : ∀ c ∈ ds.reverse, Char.isDigit c = true := by
    intro c hcm; exact hdig c (by simpa using hcm)
  have hrev : (b ++ '/' :: 'p' :: 'a' :: 'g' :: 'e' :: '-' :: ds).reverse
      = ds.reverse ++ '-' :: 'e' :: 'g' :: 'a' :: 'p' :: '/' :: b.reverse := by
    simp
  unfold stripPageSuffix
  rw [hrev, takeWhile_append_all hdigr, dropWhile_append_all hdigr]
  have htw : List.takeWhile Char.isDigit ('-' :: 'e' :: 'g' :: 'a' :: 'p' :: '/' :: b.reverse)
      = [] := by
    rw [List.takeWhile_cons_of_neg]; decide
  have hdw : List.dropWhile Char.isDigit ('-' :: 'e' :: 'g' :: 'a' :: 'p' :: '/' :: b.reverse)
      = '-' :: 'e' :: 'g' :: 'a' :: 'p' :: '/' :: b.reverse := by
    rw [List.dropWhile_cons_of_neg]; decide
  rw [htw, hdw, List.append_nil]
  have hne' : ds.reverse ≠ [] := by simpa using hne
  rw [if_pos hne']
  have hml : matchLit ['-', 'e', 'g', 'a', 'p', '/']
      ('-' :: 'e' :: 'g' :: 'a' :: 'p' :: '/' :: b.reverse) = some b.reverse :=
    matchLit_self ['-', 'e', 'g', 'a', 'p', '/'] b.reverse
  rw [hml]
  simp

theorem toString_int_digits {m : Int} (hm : 0 ≤ m) :
    (toString m).toList ≠ [] ∧ ∀ c ∈ (toString m).toList, c.isDigit = true := by
  obtain ⟨k, rfl⟩ : ∃ k : Nat, m = Int.ofNat k :=
    ⟨m.toNat, by rw [Int.ofNat_eq_coe, Int.toNat_of_nonneg hm]⟩
  rw [intToString_toList]
  exact ⟨toDigits_ten_ne_nil k, toDigits_ten_digits k⟩

theorem pageBaseL_stable_append_page (b : List Char) (m : Int) (hm2 : ¬m ≤ 1) :
    pageBaseL (b ++ '/' :: 'p' :: 'a' :: 'g' :: 'e' :: '-' :: (toString m).toList) = b := by
  have hds := toString_int_digits (m := m) (by omega)
  obtain ⟨c, t, hrev, hcm⟩ := rev_cons_of_ne_nil hds.1
  have hfullrev : (b ++ '/' :: 'p' :: 'a' :: 'g' :: 'e' :: '-' :: (toString m).toList).reverse
      = c :: (t ++ '-' :: 'e' :: 'g' :: 'a' :: 'p' :: '/' :: b.reverse) := by
    rw [List.reverse_append]
    have : ('/' :: 'p' :: 'a' :: 'g' :: 'e' :: '-' :: (toString m).toList).reverse
        = c :: (t ++ ['-', 'e', 'g', 'a', 'p', '/']) := by
      show (['/', 'p', 'a', 'g', 'e', '-'] ++ (toString m).toList).reverse
          = c :: (t ++ ['-', 'e', 'g', 'a', 'p', '/'])
      rw [List.reverse_append, hrev]
      rfl
    rw [this]
    simp
  unfold pageBaseL
  rw [rstrip_eq_self_of_rev_head hfullrev (isDigit_ne_slash (hds.2 c hcm))]
  exact stripPage_append _ _ hds.1 hds.2

theorem pageBase_of_build (u : String) (m : Int)
    (h1 : rstripSlashes (pageBaseL u.toList) = pageBaseL u.toList)
    (h2 : stripPageSuffix (pageBaseL u.toList) = pageBaseL u.toList) :
    pageBaseL ((build_page_url u m).toList) = pageBaseL u.toList := by
  unfold build_page_url
  by_cases hm1 : m ≤ 1
  · rw [if_pos hm1]
    have hl : ((⟨pageBaseL u.toList⟩ : String) ++ "/").toList = pageBaseL u.toList ++ ['/'] := by
      rw [toList_append]; rfl
    rw [hl]
    show stripPageSuffix (rstripSlashes (pageBaseL u.toList ++ ['/'])) = pageBaseL u.toList
    rw [rstrip_append_slash, h1, h2]
  · rw [if_neg hm1]
    have hl : ((⟨pageBaseL u.toList⟩ : String) ++ "/page-" ++ toString m).toList
        = pageBaseL u.toList ++ '/' :: 'p' :: 'a' :: 'g' :: 'e' :: '-' :: (toString m).toList := by
      rw [toList_append, toList_append, List.append_assoc]
      rfl
    rw [hl]
    exact pageBaseL_stable_append_page _ m hm1

/-- C9 counterexample: a thread URL carrying two stacked page suffixes
refutes the claimed identity
`buildPageUrl(buildPageUrl(u, m), n) = buildPageUrl(u, n)`: the builder
strips only one `/page-N` suffix per application, so at
`u = "https://x/t/foo.1/page-2/page-3"`, `m = n = 1`, the left side is
`"https://x/t/foo.1/"` while the right side is
`"https://x/t/foo.1/page-2/"`. -/
theorem build_page_url_cex :
    build_page_url (build_page_url "https://x/t/foo.1/page-2/page-3" 1) 1
      ≠ build_page_url "https://x/t/foo.1/page-2/page-3" 1 := by
  decide

/-- C9 (amended): the builder strips any trailing slashes and one
existing `/page-N` suffix from the thread URL, maps page 1 to the
stripped base plus a trailing slash and page n > 1 to the base plus
`/page-n`; the two concrete spec equations hold, and the re-application
identity `buildPageUrl(buildPageUrl(u, m), n) = buildPageUrl(u, n)`
holds provided the stripped base of `u` is itself stable under the
stripping (no second `/page-N` suffix and no trailing slash remains) —
true in particular for every URL carrying at most one page suffix. -/
theorem build_page_url_claim (u : String) (m n : Int) (_hm : 1 ≤ m) (_hn : 1 ≤ n)
    (h1 : rstripSlashes (pageBaseL u.toList) = pageBaseL u.toList)
    (h2 : stripPageSuffix (pageBaseL u.toList) = pageBaseL u.toList) :
    build_page_url "https://x/t/foo.1/" 1 = "https://x/t/foo.1/" ∧
    build_page_url "https://x/t/foo.1/" 3 = "https://x/t/foo.1/page-3" ∧
    build_page_url (build_page_url u m) n = build_page_url u n := by
  refine ⟨by decide, by decide, ?_⟩
  have hb : pageBaseL ((build_page_url u m).toList) = pageBaseL u.toList :=
    pageBase_of_build u m h1 h2
  generalize hq : build_page_url u m = q at hb
  unfold build_page_url
  by_cases hn1 : n ≤ 1
  · rw [if_pos hn1, if_pos hn1, hb]
  · rw [if_neg hn1, if_neg hn1, hb]

/-- Witness for C9 at `u = "https://x/t/foo.1/"`, `m = 2`, `n = 3`. -/
theorem build_page_url_claim_w :
    build_page_url (build_page_url "https://x/t/foo.1/" 2) 3
      = build_page_url "https://x/t/foo.1/" 3 :=
  (build_page_url_claim "https://x/t/foo.1/" 2 3 (by decide) (by decide)
    (by decide) (by decide)).2.2

/-! Cache lemmas and claims. -/

theorem put_enabled (cfg : CacheCfg) (fs : FS) (t : Int) (k v : String)
    (hen : cfg.enabled = true) :
    PageCache.put cfg fs t k v = fsSet fs (keyPath k) (.json (some k) (some t) (some v)) := by
  simp [PageCache.put, hen]

theorem fsSet_same (fs : FS) (p : String) (x : StoredFile) : fsSet fs p x p = some x := by
  simp [fsSet]

theorem fsErase_same (fs : FS) (p : String) : fsErase fs p p = none := by
  simp [fsErase]

theorem get_of_stored (cfg : CacheCfg) (fs : FS) (now : Int) (k u0 : String)
    (t0 : Int) (v : String) (hen : cfg.enabled = true)
    (hst : fs (keyPath k) = some (.json (some u0) (some t0) (some v))) :
    PageCache.get cfg fs now k =
      if cfg.ttl > 0 && now - t0 > cfg.ttl then (.ok none, fsErase fs (keyPath k))
      else (.ok (some v), fs) := by
  simp only [PageCache.get, hen, Bool.not_true, Bool.false_eq_true, if_false, hst,
    Option.getD_some]

/-- C5: on an enabled cache, `put(k, v)` followed by `get(k)` returns
exactly `v` while the entry's age `t1 - t0` does not exceed a positive
TTL; once the age exceeds the TTL the read reports a miss and unlinks
the entry's file at that moment; with TTL = 0 the entry never expires,
whatever time has elapsed. -/
theorem cache_ttl_claim (cfg : CacheCfg) (fs : FS) (k v : String) (t0 t1 : Int)
    (hen : cfg.enabled = true) :
    (0 < cfg.ttl → t1 - t0 ≤ cfg.ttl →
      PageCache.get cfg (PageCache.put cfg fs t0 k v) t1 k
        = (.ok (some v), PageCache.put cfg fs t0 k v)) ∧
    (0 < cfg.ttl → cfg.ttl < t1 - t0 →
      PageCache.get cfg (PageCache.put cfg fs t0 k v) t1 k
        = (.ok none, fsErase (PageCache.put cfg fs t0 k v) (keyPath k)) ∧
      fsErase (PageCache.put cfg fs t0 k v) (keyPath k) (keyPath k) = none) ∧
    (cfg.ttl = 0 →
      PageCache.get cfg (PageCache.put cfg fs t0 k v) t1 k
        = (.ok (some v), PageCache.put cfg fs t0 k v)) := by
  have hst : (PageCache.put cfg fs t0 k v) (keyPath k)
      = some (.json (some k) (some t0) (some v)) := by
    rw [put_enabled cfg fs t0 k v hen]; exact fsSet_same _ _ _
  have hget := get_of_stored cfg (PageCache.put cfg fs t0 k v) t1 k k t0 v hen hst
  refine ⟨?_, ?_, ?_⟩
  · intro hpos hle
    rw [hget, if_neg]
    simp only [Bool.and_eq_true, decide_eq_true_eq, not_and]
    intro _
    omega
  · intro hpos hgt
    rw [hget, if_pos]
    · exact ⟨rfl, fsErase_same _ _⟩
    · simp only [Bool.and_eq_true, decide_eq_true_eq]
      omega
  · intro h0
    rw [hget, if_neg]
    simp only [Bool.and_eq_true, decide_eq_true_eq, not_and]
    intro hpos
    omega

/-- Witness for C5 at `ttl = 10`, `t0 = 0`, fresh read at `t1 = 10`
(age equal to the TTL, not expired), expired read at `t1 = 11`, and a
`ttl = 0` read at `t1 = 1000000`. -/
theorem cache_ttl_claim_w :
    (PageCache.get ⟨10, true⟩ (PageCache.put ⟨10, true⟩ (fun _ => none) 0 "k" "v") 10 "k"
      = (.ok (some "v"), PageCache.put ⟨10, true⟩ (fun _ => none) 0 "k" "v")) ∧
    (PageCache.get ⟨10, true⟩ (PageCache.put ⟨10, true⟩ (fun _ => none) 0 "k" "v") 11 "k"
      = (.ok none,
         fsErase (PageCache.put ⟨10, true⟩ (fun _ => none) 0 "k" "v") (keyPath "k")) ∧
      fsErase (PageCache.put ⟨10, true⟩ (fun _ => none) 0 "k" "v") (keyPath "k") (keyPath "k")
        = none) ∧
    (PageCache.get ⟨0, true⟩ (PageCache.put ⟨0, true⟩ (fun _ => none) 0 "k" "v") 1000000 "k"
      = (.ok (some "v"), PageCache.put ⟨0, true⟩ (fun _ => none) 0 "k" "v")) :=
  ⟨(cache_ttl_claim ⟨10, true⟩ (fun _ => none) "k" "v" 0 10 rfl).1 (by decide) (by decide),
   (cache_ttl_claim ⟨10, true⟩ (fun _ => none) "k" "v" 0 11 rfl).2.1 (by decide) (by decide),
   (cache_ttl_claim ⟨0, true⟩ (fun _ => none) "k" "v" 0 1000000 rfl).2.2 rfl⟩

/-- C6: on an enabled cache, a stored file that exists but cannot be
decoded makes `get` fail with `CacheReadError` (it is not a miss),
while a missing file is an ordinary miss — the two outcomes are
distinct values. -/
theorem cache_corrupt_claim (cfg : CacheCfg) (fs : FS) (t : Int) (k : String)
    (hen : cfg.enabled = true) :
    (fs (keyPath k) = some .corrupt →
      PageCache.get cfg fs t k = (.error (.cacheRead k), fs)) ∧
    (fs (keyPath k) = none → PageCache.get cfg fs t k = (.ok none, fs)) ∧
    ((Except.error (CrawlErr.cacheRead k) : Except CrawlErr (Option String))
      ≠ Except.ok none) := by
  refine ⟨?_, ?_, by simp⟩
  · intro hc
    simp only [PageCache.get, hen, Bool.not_true, Bool.false_eq_true, if_false, hc]
  · intro hc
    simp only [PageCache.get, hen, Bool.not_true, Bool.false_eq_true, if_false, hc]

/-- Witness for C6: a corrupt file at the key's path and a missing one. -/
theorem cache_corrupt_claim_w :
    (PageCache.get ⟨10, true⟩ (fun _ => some .corrupt) 0 "k"
      = (.error (.cacheRead "k"), fun _ => some .corrupt)) ∧
    (PageCache.get ⟨10, true⟩ (fun _ => none) 0 "k" = (.ok none, fun _ => none)) :=
  ⟨(cache_corrupt_claim ⟨10, true⟩ (fun _ => some .corrupt) 0 "k" rfl).1 rfl,
   (cache_corrupt_claim ⟨10, true⟩ (fun _ => none) 0 "k" rfl).2.1 rfl⟩

/-! Crawler lemmas and claims. -/

/-- The empty cache directory. -/
def emptyFS : FS := fun _ => none

theorem fetch_html_ok_eq (γ : Ctx) (fs fs₁ : FS) (url : String) (use_cache : Bool)
    (resp : HttpResp)
    (hmiss : cacheConsult γ.cfg fs γ.now url use_cache = (.ok none, fs₁))
    (hresp : γ.response url = .ok resp) :
    fetch_html γ fs url use_cache =
      if resp.status = 404 then (.error (.threadNotFound url), fs₁)
      else if resp.status = 403 then (.error (.http 403 url true), fs₁)
      else if resp.status ≥ 400 then (.error (.http resp.status url false), fs₁)
      else (.ok resp.text, PageCache.put γ.cfg fs₁ γ.now url resp.text) := by
  simp only [fetch_html, hmiss, hresp]

/-- C7: when a fetch reaches the network (the cache consultation
reported a miss, in particular whenever the caller opted out of cache
reads), the status-code dispatch is exactly: 404 ⇒
`ThreadNotFoundError(url)`, 403 ⇒ `CloudflareBlockedError(url)` (the
distinguished 403 variant of `HTTPError`), any other status ≥ 400 ⇒
`HTTPError(status, url)`; any status < 400 succeeds with the response
body, and the body is then written into the cache under the request
target — also when the caller opted out of reads, since the final
conjunct holds for every `use_cache`. -/
theorem fetch_html_claim (γ : Ctx) (fs fs₁ : FS) (url : String) (use_cache : Bool)
    (resp : HttpResp)
    (hmiss : cacheConsult γ.cfg fs γ.now url use_cache = (.ok none, fs₁))
    (hresp : γ.response url = .ok resp) :
    (resp.status = 404 →
      fetch_html γ fs url use_cache = (.error (.threadNotFound url), fs₁)) ∧
    (resp.status = 403 →
      fetch_html γ fs url use_cache = (.error (.http 403 url true), fs₁)) ∧
    (resp.status ≠ 404 → resp.status ≠ 403 → 400 ≤ resp.status →
      fetch_html γ fs url use_cache = (.error (.http resp.status url false), fs₁)) ∧
    (resp.status < 400 →
      fetch_html γ fs url use_cache
        = (.ok resp.text, PageCache.put γ.cfg fs₁ γ.now url resp.text) ∧
      (γ.cfg.enabled = true →
        PageCache.put γ.cfg fs₁ γ.now url resp.text (keyPath url)
          = some (.json (some url) (some γ.now) (some resp.text)))) := by
  have hfe := fetch_html_ok_eq γ fs fs₁ url use_cache resp hmiss hresp
  refine ⟨?_, ?_, ?_, ?_⟩
  · intro h404
    rw [hfe, if_pos h404]
  · intro h403
    rw [hfe, if_neg (by omega), if_pos h403]
  · intro h1 h2 h3
    rw [hfe, if_neg h1, if_neg h2, if_pos (by omega)]
  · intro hlt
    refine ⟨by rw [hfe, if_neg (by omega), if_neg (by omega), if_neg (by omega)], ?_⟩
    intro hen
    rw [put_enabled _ _ _ _ _ hen]
    exact fsSet_same _ _ _

/-- Context used by the C7 witness: empty enabled cache, transport
answering every URL with the given status. -/
def wCtx (s : Int) : Ctx :=
  ⟨⟨10, true⟩, 0, fun _ => .ok ⟨s, "b"⟩, fun _ _ => .error (.network "x")⟩

/-- Witness for C7 at statuses 404, 403, 500 and 200, on an empty
enabled cache with cache reads opted out. -/
theorem fetch_html_claim_w :
    (fetch_html (wCtx 404) emptyFS "u" false = (.error (.threadNotFound "u"), emptyFS)) ∧
    (fetch_html (wCtx 403) emptyFS "u" false = (.error (.http 403 "u" true), emptyFS)) ∧
    (fetch_html (wCtx 500) emptyFS "u" false = (.error (.http 500 "u" false), emptyFS)) ∧
    (fetch_html (wCtx 200) emptyFS "u" false
      = (.ok "b", PageCache.put (wCtx 200).cfg emptyFS 0 "u" "b") ∧
     PageCache.put (wCtx 200).cfg emptyFS 0 "u" "b" (keyPath "u")
       = some (.json (some "u") (some 0) (some "b"))) :=
  ⟨(fetch_html_claim (wCtx 404) emptyFS emptyFS "u" false ⟨404, "b"⟩ rfl rfl).1 rfl,
   (fetch_html_claim (wCtx 403) emptyFS emptyFS "u" false ⟨403, "b"⟩ rfl rfl).2.1 rfl,
   (fetch_html_claim (wCtx 500) emptyFS emptyFS "u" false ⟨500, "b"⟩ rfl rfl).2.2.1
     (by decide) (by decide) (by decide),
   ⟨((fetch_html_claim (wCtx 200) emptyFS emptyFS "u" false ⟨200, "b"⟩ rfl rfl).2.2.2
       (by decide)).1,
    ((fetch_html_claim (wCtx 200) emptyFS emptyFS "u" false ⟨200, "b"⟩ rfl rfl).2.2.2
       (by decide)).2 rfl⟩⟩

/-- C3: after a successful fetch and parse, `crawl_page` compares the
requested page against the parsed total: when the parsed total is
smaller it raises `PageOutOfRangeError` carrying exactly the requested
page, the parsed total and the thread URL, returning nothing else;
when the requested page does not exceed the total it returns the
parsed `PageData`. -/
theorem crawl_page_claim (γ : Ctx) (fs fs' : FS) (turl : String) (page : Int)
    (html : String) (pd : PageData)
    (hf : fetch_html γ fs (build_page_url turl page) true = (.ok html, fs'))
    (hp : γ.parse html (build_page_url turl page) = .ok pd) :
    (pd.total_pages < page →
      crawl_page γ fs turl page
        = (.error (.pageOutOfRange page pd.total_pages turl), fs')) ∧
    (page ≤ pd.total_pages → crawl_page γ fs turl page = (.ok pd, fs')) := by
  constructor
  · intro hlt
    simp only [crawl_page, hf, hp]
    rw [if_pos (by omega)]
  · intro hle
    simp only [crawl_page, hf, hp]
    rw [if_neg (by omega)]

/-- Context used by the C3 and C4 witnesses: cache disabled, transport
always succeeding, every page parsing to a 5-page thread. -/
def wCtx5 : Ctx :=
  ⟨⟨10, false⟩, 0, fun _ => .ok ⟨200, "h"⟩,
   fun _ _ => .ok ⟨1, 5, [⟨"1", "a", "t"⟩], "u"⟩⟩

/-- Witness for C3: requesting page 6 of the 5-page thread raises
`PageOutOfRangeError(6, 5, url)`; requesting page 5 succeeds. -/
theorem crawl_page_claim_w :
    (crawl_page wCtx5 emptyFS "https://voz.vn/t/x.1/" 6
      = (.error (.pageOutOfRange 6 5 "https://voz.vn/t/x.1/"), emptyFS)) ∧
    (crawl_page wCtx5 emptyFS "https://voz.vn/t/x.1/" 5
      = (.ok ⟨1, 5, [⟨"1", "a", "t"⟩], "u"⟩, emptyFS)) :=
  ⟨(crawl_page_claim wCtx5 emptyFS emptyFS "https://voz.vn/t/x.1/" 6 "h"
      ⟨1, 5, [⟨"1", "a", "t"⟩], "u"⟩ rfl rfl).1 (by decide),
   (crawl_page_claim wCtx5 emptyFS emptyFS "https://voz.vn/t/x.1/" 5 "h"
      ⟨1, 5, [⟨"1", "a", "t"⟩], "u"⟩ rfl rfl).2 (by decide)⟩

/-- C10: when the requested page exceeds the parsed total, the raised
`PageOutOfRangeError` leaves the fetched page content already stored in
the enabled cache under the constructed page URL: `fetch_html` wrote it
before `crawl_page` ran the range validation, so the operation is not
atomic with respect to cache state. -/
theorem crawl_page_cache_claim (γ : Ctx) (fs : FS) (turl : String) (page : Int)
    (resp : HttpResp) (pd : PageData)
    (hen : γ.cfg.enabled = true)
    (hmiss : fs (keyPath (build_page_url turl page)) = none)
    (hresp : γ.response (build_page_url turl page) = .ok resp)
    (hst : resp.status < 400)
    (hp : γ.parse resp.text (build_page_url turl page) = .ok pd)
    (hrange : pd.total_pages < page) :
    crawl_page γ fs turl page
      = (.error (.pageOutOfRange page pd.total_pages turl),
         PageCache.put γ.cfg fs γ.now (build_page_url turl page) resp.text) ∧
    PageCache.put γ.cfg fs γ.now (build_page_url turl page) resp.text
      (keyPath (build_page_url turl page))
      = some (.json (some (build_page_url turl page)) (some γ.now) (some resp.text)) := by
  have hcc : cacheConsult γ.cfg fs γ.now (build_page_url turl page) true
      = (.ok none, fs) := by
    simp only [cacheConsult, if_true, PageCache.get, hen, Bool.not_true,
      Bool.false_eq_true, if_false, hmiss]
  have hfe := fetch_html_ok_eq γ fs fs (build_page_url turl page) true resp hcc hresp
  rw [if_neg (by omega), if_neg (by omega), if_neg (by omega)] at hfe
  constructor
  · simp only [crawl_page, hfe, hp]
    rw [if_pos (by omega)]
  · rw [put_enabled _ _ _ _ _ hen]
    exact fsSet_same _ _ _

/-- Context used by the C10 witness: enabled empty cache, transport
succeeding, every page parsing to a 5-page thread. -/
def wCtx5e : Ctx :=
  ⟨⟨10, true⟩, 0, fun _ => .ok ⟨200, "h"⟩,
   fun _ _ => .ok ⟨1, 5, [⟨"1", "a", "t"⟩], "u"⟩⟩

/-- Witness for C10: requesting page 9 of the 5-page thread fails but
the fetched content is in the cache under the page-9 URL. -/
theorem crawl_page_cache_claim_w :
    (crawl_page wCtx5e emptyFS "https://voz.vn/t/x.1/" 9
      = (.error (.pageOutOfRange 9 5 "https://voz.vn/t/x.1/"),
         PageCache.put wCtx5e.cfg emptyFS 0
           (build_page_url "https://voz.vn/t/x.1/" 9) "h")) ∧
    (PageCache.put wCtx5e.cfg emptyFS 0 (build_page_url "https://voz.vn/t/x.1/" 9) "h"
      (keyPath (build_page_url "https://voz.vn/t/x.1/" 9))
      = some (.json (some (build_page_url "https://voz.vn/t/x.1/" 9)) (some 0) (some "h"))) :=
  crawl_page_cache_claim wCtx5e emptyFS "https://voz.vn/t/x.1/" 9 ⟨200, "h"⟩
    ⟨1, 5, [⟨"1", "a", "t"⟩], "u"⟩ rfl rfl rfl (by decide) rfl (by decide)

/-! The page range of crawl_pages. -/

/-- The integer interval `[a, b]` as an ascending list. -/
def intRange (a b : Int) : List Int :=
  (List.range (b + 1 - a).toNat).map (fun k : Nat => a + (k : Int))

theorem intRange_nil {a b : Int} (h : b < a) : intRange a b = [] := by
  unfold intRange
  have h0 : (b + 1 - a).toNat = 0 := by omega
  rw [h0]
  rfl

theorem intRange_cons {a b : Int} (h : a ≤ b) :
    intRange a b = a :: intRange (a + 1) b := by
  unfold intRange
  obtain ⟨n, hn⟩ : ∃ n : Nat, (b + 1 - a).toNat = n + 1 := ⟨(b - a).toNat, by omega⟩
  have hn' : (b + 1 - (a + 1)).toNat = n := by omega
  rw [hn, hn', List.range_succ_eq_map, List.map_cons, List.map_map]
  have hh : a + ((0 : Nat) : Int) = a := by simp
  rw [hh]
  congr 1
  apply List.map_congr_left
  intro x _
  simp only [Function.comp_apply]
  push_cast
  omega

theorem crawlPagesLoop_eq (γ : Ctx) (turl : String) (fs : FS) (pd : Int → PageData) :
    ∀ (k : Nat) (p last : Int), p + (k : Int) = last + 1 →
      (∀ q, p ≤ q → q ≤ last → crawl_page γ fs turl q = (.ok (pd q), fs)) →
      crawlPagesLoop γ turl k p fs = (.ok ((intRange p last).map pd), fs) := by
  intro k
  induction k with
  | zero =>
    intro p last hpk _
    rw [intRange_nil (by omega)]
    rfl
  | succ n ih =>
    intro p last hpk hq
    have hple : p ≤ last := by push_cast at hpk; omega
    have h1 := hq p le_rfl hple
    simp only [crawlPagesLoop, h1]
    rw [ih (p + 1) last (by push_cast at hpk ⊢; omega)
      (fun q hq1 hq2 => hq q (by omega) hq2)]
    rw [intRange_cons hple, List.map_cons]

/-- C4: a successful `crawl_pages(threadUrl, start, end)` run returns
the pages `start .. min(end, total)` in ascending order (with
`end = None` meaning the total discovered from the start page's parse),
crawling the start page first and then `start+1` upward sequentially;
when the effective end does not exceed `start`, the result is exactly
the single-element list of the start page.  (A successful run with the
discovered total smaller than `start` cannot occur: `crawl_page`
already rejects the start page then, so that clause of the claim holds
vacuously.)  The hypotheses fix the per-page outcomes of `crawl_page`
over an unchanging cache state, as in a cache-disabled or fully cached
run. -/
theorem crawl_pages_claim (γ : Ctx) (fs : FS) (turl : String) (start : Int)
    (endp : Option Int) (pd : Int → PageData)
    (h0 : crawl_page γ fs turl start = (.ok (pd start), fs))
    (hrest : ∀ q, start < q → q ≤ effectiveLast endp (pd start).total_pages →
      crawl_page γ fs turl q = (.ok (pd q), fs)) :
    crawl_pages γ fs turl start endp
      = (.ok (pd start :: (intRange (start + 1)
          (effectiveLast endp (pd start).total_pages)).map pd), fs) ∧
    (effectiveLast endp (pd start).total_pages ≤ start →
      crawl_pages γ fs turl start endp = (.ok [pd start], fs)) := by
  have hmain : crawl_pages γ fs turl start endp
      = (.ok (pd start :: (intRange (start + 1)
          (effectiveLast endp (pd start).total_pages)).map pd), fs) := by
    simp only [crawl_pages, h0]
    by_cases hc : effectiveLast endp (pd start).total_pages ≤ start
    · have hk : (effectiveLast endp (pd start).total_pages - start).toNat = 0 := by omega
      rw [hk, intRange_nil (by omega)]
      rfl
    · rw [crawlPagesLoop_eq γ turl fs pd
        (effectiveLast endp (pd start).total_pages - start).toNat (start + 1)
        (effectiveLast endp (pd start).total_pages) (by omega)
        (fun q h1 h2 => hrest q (by omega) h2)]
  refine ⟨hmain, ?_⟩
  intro hle
  rw [hmain, intRange_nil (by omega)]
  rfl

/-- Witness for C4: a 5-page thread crawled from page 1 with requested
end 3 yields exactly pages 1, 2, 3 in order. -/
theorem crawl_pages_claim_w :
    crawl_pages wCtx5 emptyFS "https://voz.vn/t/x.1/" 1 (some 3)
      = (.ok [⟨1, 5, [⟨"1", "a", "t"⟩], "u"⟩, ⟨1, 5, [⟨"1", "a", "t"⟩], "u"⟩,
              ⟨1, 5, [⟨"1", "a", "t"⟩], "u"⟩], emptyFS) :=
  (crawl_pages_claim wCtx5 emptyFS "https://voz.vn/t/x.1/" 1 (some 3)
    (fun _ => ⟨1, 5, [⟨"1", "a", "t"⟩], "u"⟩) rfl
    (by
      intro q h1 h2
      have h2' : q ≤ 3 := h2
      have hq : q = 2 ∨ q = 3 := by omega
      rcases hq with rfl | rfl <;> rfl)).1

/-! Pagination claims. -/

/-- C8 counterexample: `parse_pagination` trusts the labels, so markup
whose current-page label reads "5" while the last page-nav item reads
"2" yields `(5, 2)`, violating the claimed invariant
`current page ≤ total pages`. -/
theorem parse_pagination_cex :
    parse_pagination (some ("5", "2")) = (5, 2) ∧
    ¬(parse_pagination (some ("5", "2"))).1 ≤ (parse_pagination (some ("5", "2"))).2 := by
  decide

/-- C8 (amended): with no pagination region the result is `(1, 1)`;
otherwise the current page is the parsed current label with fallback 1
and the total is the parsed last label with fallback the current page;
the invariant `1 ≤ current ≤ total` holds provided the current label
parses to a value ≥ 1 (or fails to parse) and the last label parses to
a value ≥ the current page (or fails to parse) — the code does not
enforce it against labels that contradict it. -/
theorem parse_pagination_claim (cur last : String)
    (hc : ∀ c, pyInt cur = some c → 1 ≤ c)
    (ht : ∀ t, pyInt last = some t → (pyInt cur).getD 1 ≤ t) :
    parse_pagination none = (1, 1) ∧
    parse_pagination (some (cur, last))
      = ((pyInt cur).getD 1, (pyInt last).getD ((pyInt cur).getD 1)) ∧
    1 ≤ (parse_pagination (some (cur, last))).1 ∧
    (parse_pagination (some (cur, last))).1 ≤ (parse_pagination (some (cur, last))).2 := by
  refine ⟨rfl, rfl, ?_, ?_⟩
  · show 1 ≤ (pyInt cur).getD 1
    cases hcur : pyInt cur with
    | none => simp
    | some c => simpa using hc c hcur
  · show (pyInt cur).getD 1 ≤ (pyInt last).getD ((pyInt cur).getD 1)
    cases hlast : pyInt last with
    | none => simp
    | some t => simpa using ht t hlast

/-- Witness for C8 at current label "2", last label "5". -/
theorem parse_pagination_claim_w :
    parse_pagination none = (1, 1) ∧
    parse_pagination (some ("2", "5"))
      = ((pyInt "2").getD 1, (pyInt "5").getD ((pyInt "2").getD 1)) ∧
    1 ≤ (parse_pagination (some ("2", "5"))).1 ∧
    (parse_pagination (some ("2", "5"))).1 ≤ (parse_pagination (some ("2", "5"))).2 :=
  parse_pagination_claim "2" "5"
    (by
      intro c hcy
      have h2 : pyInt "2" = some 2 := by decide
      rw [h2] at hcy
      cases hcy
      decide)
    (by
      intro t hty
      have h5 : pyInt "5" = some 5 := by decide
      rw [h5] at hty
      cases hty
      decide)

/-! Lemmas for the quote-annotation scanner (graph._QUOTE_RE.findall). -/

theorem toList_quoteOpen : "<quote".toList = ['<', 'q', 'u', 'o', 't', 'e'] := rfl

theorem quoteMatchAt_ne_head {c : Char} (hc : c ≠ '<') (l : List Char) :
    quoteMatchAt (c :: l) = none := by
  simp [quoteMatchAt, toList_quoteOpen, matchLit, hc]

theorem quoteMatchAt_slash (l : List Char) : quoteMatchAt ('<' :: '/' :: l) = none := by
  simp [quoteMatchAt, toList_quoteOpen, matchLit]

theorem takeWhile_ne_quot (A r : List Char) (h : ∀ c ∈ A, c ≠ '"') :
    List.takeWhile (fun c => c ≠ '"') (A ++ '"' :: r) = A := by
  rw [takeWhile_append_all (fun c hc => by simpa using h c hc)]
  rw [List.takeWhile_cons_of_neg (by simp)]
  simp

theorem dropWhile_ne_quot (A r : List Char) (h : ∀ c ∈ A, c ≠ '"') :
    List.dropWhile (fun c => c ≠ '"') (A ++ '"' :: r) = '"' :: r := by
  rw [dropWhile_append_all (fun c hc => by simpa using h c hc)]
  rw [List.dropWhile_cons_of_neg (by simp)]

theorem takeWhile_digits (D r : List Char) (hd : ∀ c ∈ D, c.isDigit = true) :
    List.takeWhile Char.isDigit (D ++ '"' :: r) = D := by
  rw [takeWhile_append_all hd, List.takeWhile_cons_of_neg (by decide)]
  simp

theorem dropWhile_digits (D r : List Char) (hd : ∀ c ∈ D, c.isDigit = true) :
    List.dropWhile Char.isDigit (D ++ '"' :: r) = '"' :: r := by
  rw [dropWhile_append_all hd, List.dropWhile_cons_of_neg (by decide)]

theorem quoteMatchAt_render (q : QAnnot) (t : List Char)
    (hne : q.author.toList ≠ [])
    (hqa : ∀ c ∈ q.author.toList, c ≠ '"')
    (hpid : ∀ c ∈ q.pid.toList, c.isDigit = true) :
    quoteMatchAt (renderAnnL q ++ t)
      = some ((q.author, q.pid), q.qbody.toList ++ "</quote>".toList ++ t) := by
  by_cases hpw : q.pid.toList = []
  · have hform : renderAnnL q ++ t
        = '<' :: 'q' :: 'u' :: 'o' :: 't' :: 'e' :: ' ' :: 'a' :: 'u' :: 't' :: 'h' :: 'o'
          :: 'r' :: '=' :: '"' ::
          (q.author.toList ++ '"' :: '>' :: (q.qbody.toList ++ "</quote>".toList ++ t)) := by
      unfold renderAnnL
      rw [if_pos hne, if_neg (by simp only [ne_eq, not_not]; exact hpw)]
      simp
    rw [hform]
    simp only [quoteMatchAt, toList_quoteOpen, matchLit]
    simp only [reduceIte, if_true]
    rw [List.takeWhile_cons_of_pos (by decide), List.takeWhile_cons_of_neg (by decide),
        List.dropWhile_cons_of_pos (by decide), List.dropWhile_cons_of_neg (by decide)]
    rw [if_neg (by simp)]
    rw [show ("author=\"".toList : List Char) = ['a', 'u', 't', 'h', 'o', 'r', '=', '"'] from rfl]
    simp only [matchLit, reduceIte]
    rw [takeWhile_ne_quot _ _ hqa, if_neg hne, dropWhile_ne_quot _ _ hqa]
    have hp0 : q.pid = "" := by rw [← mk_toList q.pid, hpw]
    simp [quotePidOpt, List.takeWhile_cons, pyIsSpace, hp0, mk_toList]
  · have hform : renderAnnL q ++ t
        = '<' :: 'q' :: 'u' :: 'o' :: 't' :: 'e' :: ' ' :: 'a' :: 'u' :: 't' :: 'h' :: 'o'
          :: 'r' :: '=' :: '"' ::
          (q.author.toList ++ '"' :: ' ' :: 'p' :: 'o' :: 's' :: 't' :: '_' :: 'i' :: 'd'
            :: '=' :: '"' ::
            (q.pid.toList ++ '"' :: '>' :: (q.qbody.toList ++ "</quote>".toList ++ t))) := by
      unfold renderAnnL
      rw [if_pos hne, if_pos hpw]
      simp
    rw [hform]
    simp only [quoteMatchAt, toList_quoteOpen, matchLit]
    simp only [reduceIte, if_true]
    rw [List.takeWhile_cons_of_pos (by decide), List.takeWhile_cons_of_neg (by decide),
        List.dropWhile_cons_of_pos (by decide), List.dropWhile_cons_of_neg (by decide)]
    rw [if_neg (by simp)]
    rw [show ("author=\"".toList : List Char) = ['a', 'u', 't', 'h', 'o', 'r', '=', '"'] from rfl]
    simp only [matchLit, reduceIte]
    rw [takeWhile_ne_quot _ _ hqa, if_neg hne, dropWhile_ne_quot _ _ hqa]
    simp only [quotePidOpt]
    rw [List.takeWhile_cons_of_pos (by decide), List.takeWhile_cons_of_neg (by decide),
        List.dropWhile_cons_of_pos (by decide), List.dropWhile_cons_of_neg (by decide)]
    rw [if_neg (by simp)]
    rw [show ("post_id=\"".toList : List Char) = ['p', 'o', 's', 't', '_', 'i', 'd', '=', '"'] from rfl]
    simp only [matchLit, reduceIte]
    rw [takeWhile_digits _ _ hpid, dropWhile_digits _ _ hpid, if_neg hpw]
    simp [mk_toList]

theorem findQuotesAux_nil (fuel : Nat) : findQuotesAux fuel [] = [] := by
  cases fuel <;> rfl

theorem findQuotesAux_match (f : Nat) (L : List Char) (m : String × String) (r : List Char)
    (hL : L ≠ []) (hm : quoteMatchAt L = some (m, r)) :
    findQuotesAux (f + 1) L = m :: findQuotesAux f r := by
  cases L with
  | nil => exact absurd rfl hL
  | cons c cs => simp only [findQuotesAux, hm]

theorem findQuotesAux_nomatch (f : Nat) (c : Char) (cs : List Char)
    (hm : quoteMatchAt (c :: cs) = none) :
    findQuotesAux (f + 1) (c :: cs) = findQuotesAux f cs := by
  simp only [findQuotesAux, hm]

theorem findQuotesAux_skip (s : List Char) (hlt : ∀ c ∈ s, c ≠ '<') :
    ∀ (t : List Char) (fuel : Nat), s.length ≤ fuel →
      findQuotesAux fuel (s ++ t) = findQuotesAux (fuel - s.length) t := by
  induction s with
  | nil => intro t fuel _; simp
  | cons c cs ih =>
    intro t fuel hf
    obtain ⟨f, rfl⟩ : ∃ f, fuel = f + 1 := ⟨fuel - 1, by simp at hf; omega⟩
    have hc : c ≠ '<' := hlt c (by simp)
    show findQuotesAux (f + 1) (c :: (cs ++ t)) = _
    rw [findQuotesAux_nomatch f _ _ (quoteMatchAt_ne_head hc _)]
    rw [ih (fun d hd => hlt d (by simp [hd])) t f (by simp at hf; omega)]
    congr 1
    simp

theorem isDigit_ne_lt {c : Char} (h : c.isDigit = true) : c ≠ '<' := by
  intro he
  rw [he] at h
  exact absurd h (by decide)

theorem close_toList : ("</quote>".toList : List Char)
    = ['<', '/', 'q', 'u', 'o', 't', 'e', '>'] := rfl

theorem findQuotesAux_close (t : List Char) (fuel : Nat) (h8 : 8 ≤ fuel) :
    findQuotesAux fuel ("</quote>".toList ++ t) = findQuotesAux (fuel - 8) t := by
  obtain ⟨f, rfl⟩ : ∃ f, fuel = f + 1 := ⟨fuel - 1, by omega⟩
  show findQuotesAux (f + 1) ('<' :: ('/' :: 'q' :: 'u' :: 'o' :: 't' :: 'e' :: '>' :: t)) = _
  rw [findQuotesAux_nomatch f _ _ (quoteMatchAt_slash _)]
  rw [show ('/' :: 'q' :: 'u' :: 'o' :: 't' :: 'e' :: '>' :: t)
      = ['/', 'q', 'u', 'o', 't', 'e', '>'] ++ t from rfl]
  rw [findQuotesAux_skip _ (by decide) t f
    (by simp only [List.length_cons, List.length_nil]; omega)]
  congr 1

theorem renderAnnL_length_ge (q : QAnnot) :
    15 + q.qbody.toList.length ≤ (renderAnnL q).length := by
  unfold renderAnnL
  by_cases h1 : q.author.toList ≠ [] <;> by_cases h2 : q.pid.toList ≠ [] <;>
    simp only [h1, h2, if_true, if_false, ite_true, ite_false, close_toList,
      toList_quoteOpen, List.length_append, List.length_cons, List.length_nil] <;>
    omega

theorem findQuotesAux_ann_noauthor (q : QAnnot) (t : List Char) (fuel : Nat)
    (hna : q.author.toList = [])
    (hpid : ∀ c ∈ q.pid.toList, c.isDigit = true)
    (hqb : ∀ c ∈ q.qbody.toList, c ≠ '<')
    (hfuel : (renderAnnL q).length ≤ fuel) :
    findQuotesAux fuel (renderAnnL q ++ t)
      = findQuotesAux (fuel - (renderAnnL q).length) t := by
  by_cases hpw : q.pid.toList = []
  · have hform : renderAnnL q
        = ['<', 'q', 'u', 'o', 't', 'e', '>'] ++ q.qbody.toList ++ "</quote>".toList := by
      unfold renderAnnL
      rw [if_neg (by simp only [ne_eq, not_not]; exact hna),
          if_neg (by simp only [ne_eq, not_not]; exact hpw)]
      simp
    have hlen : (renderAnnL q).length = 15 + q.qbody.toList.length := by
      rw [hform, close_toList]
      simp only [List.length_append, List.length_cons, List.length_nil]
      omega
    rw [hlen] at hfuel ⊢
    obtain ⟨f, rfl⟩ : ∃ f, fuel = f + 1 := ⟨fuel - 1, by omega⟩
    have hL : renderAnnL q ++ t
        = '<' :: (['q', 'u', 'o', 't', 'e', '>']
            ++ (q.qbody.toList ++ ("</quote>".toList ++ t))) := by
      rw [hform]; simp
    rw [hL]
    have hm : quoteMatchAt ('<' :: (['q', 'u', 'o', 't', 'e', '>']
        ++ (q.qbody.toList ++ ("</quote>".toList ++ t)))) = none := by
      simp only [List.cons_append, List.nil_append]
      simp only [quoteMatchAt, toList_quoteOpen, matchLit]
      simp only [reduceIte, if_true]
      rw [List.takeWhile_cons_of_neg (by decide)]
      simp
    rw [findQuotesAux_nomatch f _ _ hm]
    rw [findQuotesAux_skip _ (by decide) _ f
      (by simp only [List.length_cons, List.length_nil]; omega)]
    rw [findQuotesAux_skip _ hqb _ _
      (by simp only [List.length_cons, List.length_nil]; omega)]
    rw [findQuotesAux_close _ _
      (by simp only [List.length_cons, List.length_nil]; omega)]
    congr 1
    simp only [List.length_cons, List.length_nil]
    omega
  · have hform : renderAnnL q
        = ['<', 'q', 'u', 'o', 't', 'e', ' ', 'p', 'o', 's', 't', '_', 'i', 'd', '=', '"']
          ++ q.pid.toList ++ ['"', '>'] ++ q.qbody.toList ++ "</quote>".toList := by
      unfold renderAnnL
      rw [if_neg (by simp only [ne_eq, not_not]; exact hna), if_pos hpw]
      simp
    have hlen : (renderAnnL q).length
        = 26 + q.pid.toList.length + q.qbody.toList.length := by
      rw [hform, close_toList]
      simp only [List.length_append, List.length_cons, List.length_nil]
      omega
    rw [hlen] at hfuel ⊢
    obtain ⟨f, rfl⟩ : ∃ f, fuel = f + 1 := ⟨fuel - 1, by omega⟩
    have hL : renderAnnL q ++ t
        = '<' :: (['q', 'u', 'o', 't', 'e', ' ', 'p', 'o', 's', 't', '_', 'i', 'd', '=', '"']
            ++ (q.pid.toList ++ (['"', '>']
              ++ (q.qbody.toList ++ ("</quote>".toList ++ t))))) := by
      rw [hform]; simp
    rw [hL]
    have hm : quoteMatchAt ('<' :: (['q', 'u', 'o', 't', 'e', ' ', 'p', 'o', 's', 't', '_',
        'i', 'd', '=', '"']
        ++ (q.pid.toList ++ (['"', '>'] ++ (q.qbody.toList ++ ("</quote>".toList ++ t))))))
        = none := by
      simp only [List.cons_append, List.nil_append]
      simp only [quoteMatchAt, toList_quoteOpen, matchLit]
      simp only [reduceIte, if_true]
      rw [List.takeWhile_cons_of_pos (by decide), List.takeWhile_cons_of_neg (by decide),
          List.dropWhile_cons_of_pos (by decide), List.dropWhile_cons_of_neg (by decide)]
      rw [if_neg (by simp)]
      rw [show ("author=\"".toList : List Char) = ['a', 'u', 't', 'h', 'o', 'r', '=', '"']
        from rfl]
      simp [matchLit]
    rw [findQuotesAux_nomatch f _ _ hm]
    rw [findQuotesAux_skip _ (by decide) _ f
      (by simp only [List.length_cons, List.length_nil]; omega)]
    rw [findQuotesAux_skip _ (fun c hc => isDigit_ne_lt (hpid c hc)) _ _
      (by simp only [List.length_cons, List.length_nil]; omega)]
    rw [findQuotesAux_skip _ (by decide) _ _
      (by simp only [List.length_cons, List.length_nil]; omega)]
    rw [findQuotesAux_skip _ hqb _ _
      (by simp only [List.length_cons, List.length_nil]; omega)]
    rw [findQuotesAux_close _ _
      (by simp only [List.length_cons, List.length_nil]; omega)]
    congr 1
    simp only [List.length_cons, List.length_nil]
    omega

theorem findQuotesAux_chunks :
    ∀ (chs : List Chunk), (∀ ch ∈ chs, WFChunk ch) →
    ∀ fuel, (renderChunksL chs).length ≤ fuel →
      findQuotesAux fuel (renderChunksL chs) = bodyAnnots chs := by
  intro chs
  induction chs with
  | nil =>
    intro _ fuel _
    simp [renderChunksL, bodyAnnots, findQuotesAux_nil]
  | cons ch rest ih =>
    intro hwf fuel hfuel
    have hwfr : ∀ c ∈ rest, WFChunk c := fun c hc => hwf c (by simp [hc])
    cases ch with
    | raw s =>
      have hs : ∀ c ∈ s.toList, c ≠ '<' := hwf (.raw s) (by simp)
      have hfuel' : s.toList.length + (renderChunksL rest).length ≤ fuel := by
        have hr : renderChunksL (Chunk.raw s :: rest) = s.toList ++ renderChunksL rest := rfl
        rw [hr, List.length_append] at hfuel
        exact hfuel
      show findQuotesAux fuel (s.toList ++ renderChunksL rest) = _
      rw [findQuotesAux_skip _ hs _ fuel (by omega)]
      rw [ih hwfr _ (by omega)]
      simp [bodyAnnots, List.filterMap_cons]
    | ann q =>
      obtain ⟨hqa, hpid, hqb⟩ := hwf (.ann q) (by simp)
      have hge := renderAnnL_length_ge q
      have hfuel' : (renderAnnL q).length + (renderChunksL rest).length ≤ fuel := by
        have hr : renderChunksL (Chunk.ann q :: rest) = renderAnnL q ++ renderChunksL rest := rfl
        rw [hr, List.length_append] at hfuel
        exact hfuel
      by_cases hna : q.author.toList = []
      · show findQuotesAux fuel (renderAnnL q ++ renderChunksL rest) = _
        rw [findQuotesAux_ann_noauthor q _ fuel hna hpid hqb (by omega)]
        rw [ih hwfr _ (by omega)]
        have hq0 : q.author = "" := by rw [← mk_toList q.author, hna]
        simp [bodyAnnots, List.filterMap_cons, hq0]
      · obtain ⟨f, rfl⟩ : ∃ f, fuel = f + 1 := ⟨fuel - 1, by omega⟩
        have hmatch := quoteMatchAt_render q (renderChunksL rest) hna hqa hpid
        have hne0 : renderAnnL q ++ renderChunksL rest ≠ [] := by
          intro h
          have hlen0 := congrArg List.length h
          rw [List.length_append] at hlen0
          simp only [List.length_nil] at hlen0
          omega
        show findQuotesAux (f + 1) (renderAnnL q ++ renderChunksL rest) = _
        rw [findQuotesAux_match f _ _ _ hne0 hmatch]
        rw [List.append_assoc]
        rw [findQuotesAux_skip _ hqb _ f (by omega)]
        rw [findQuotesAux_close _ _ (by omega)]
        rw [ih hwfr _ (by omega)]
        have hqne : ¬(q.author = "") := fun h => hna (by rw [h]; rfl)
        simp [bodyAnnots, List.filterMap_cons, hqne]

theorem findQuotes_render (chs : List Chunk) (hwf : ∀ ch ∈ chs, WFChunk ch) :
    findQuotes ⟨renderChunksL chs⟩ = bodyAnnots chs := by
  unfold findQuotes
  exact findQuotesAux_chunks chs hwf _ le_rfl

theorem containsKey_iff (m : List (String × String)) (k : String) :
    containsKey m k = true ↔ ∃ kv ∈ m, kv.1 = k := by
  simp [containsKey, List.any_eq_true]

theorem mapInsert_keys (m : List (String × String)) (k k' v : String) :
    containsKey (mapInsert m k' v) k = true ↔ (containsKey m k = true ∨ k' = k) := by
  unfold mapInsert
  by_cases hmem : m.any (fun kv => kv.1 = k') = true
  · rw [if_pos hmem]
    simp only [containsKey_iff]
    constructor
    · rintro ⟨kv, hkv, hk⟩
      rw [List.mem_map] at hkv
      obtain ⟨kv0, hkv0, rfl⟩ := hkv
      by_cases h0 : kv0.1 = k'
      · right
        rw [if_pos h0] at hk
        exact hk
      · left
        rw [if_neg h0] at hk
        exact ⟨kv0, hkv0, hk⟩
    · rintro (⟨kv, hkv, hk⟩ | hk)
      · by_cases h0 : kv.1 = k'
        · refine ⟨(k', v), ?_, ?_⟩
          · rw [List.mem_map]
            exact ⟨kv, hkv, by rw [if_pos h0]⟩
          · show k' = k
            rw [← h0, hk]
        · refine ⟨kv, ?_, hk⟩
          rw [List.mem_map]
          exact ⟨kv, hkv, by rw [if_neg h0]⟩
      · rw [List.any_eq_true] at hmem
        obtain ⟨kv0, hkv0, h0⟩ := hmem
        refine ⟨(k', v), ?_, hk⟩
        rw [List.mem_map]
        exact ⟨kv0, hkv0, by rw [if_pos (by simpa using h0)]⟩
  · rw [if_neg hmem]
    simp only [containsKey_iff]
    constructor
    · rintro ⟨kv, hkv, hk⟩
      rw [List.mem_append] at hkv
      rcases hkv with h | h
      · exact Or.inl ⟨kv, h, hk⟩
      · simp only [List.mem_singleton] at h
        subst h
        exact Or.inr hk
    · rintro (⟨kv, hkv, hk⟩ | hk)
      · exact ⟨kv, by simp [hkv], hk⟩
      · exact ⟨(k', v), by simp, hk⟩

theorem foldl_mapInsert_key (rows : List PostRow) :
    ∀ (acc : List (String × String)) (k : String),
      containsKey (List.foldl (fun m r => mapInsert m r.post_id r.username) acc rows) k = true
        ↔ (containsKey acc k = true ∨ rows.any (fun r => r.post_id = k) = true) := by
  induction rows with
  | nil =>
    intro acc k
    simp
  | cons r rest ih =>
    intro acc k
    simp only [List.foldl_cons, List.any_cons, Bool.or_eq_true]
    rw [ih, mapInsert_keys]
    simp only [decide_eq_true_eq]
    tauto

theorem containsKey_postUserMap (rows : List PostRow) (k : String) :
    containsKey (postUserMap rows) k = rows.any (fun r => r.post_id = k) := by
  rw [Bool.eq_iff_iff]
  unfold postUserMap
  rw [foldl_mapInsert_key rows [] k]
  simp [containsKey]

theorem flatMapCongr {α β : Type} (l : List α) (f g : α → List β)
    (h : ∀ a ∈ l, f a = g a) : l.flatMap f = l.flatMap g := by
  induction l with
  | nil => rfl
  | cons a t ih =>
    simp only [List.flatMap_cons]
    rw [h a (by simp), ih (fun x hx => h x (by simp [hx]))]

theorem filterMapCongr {α β : Type} (l : List α) (f g : α → Option β)
    (h : ∀ a ∈ l, f a = g a) : l.filterMap f = l.filterMap g := by
  induction l with
  | nil => rfl
  | cons a t ih =>
    rw [List.filterMap_cons, List.filterMap_cons, h a (by simp),
      ih (fun x hx => h x (by simp [hx]))]

theorem extract_reply_edges_claim (ps : List SpecPost) (exclude : Bool)
    (hwf : ∀ p ∈ ps, ∀ ch ∈ p.body, WFChunk ch) :
    extract_reply_edges (ps.map toRow) exclude = specEdges ps exclude := by
  simp only [extract_reply_edges, specEdges]
  rw [List.flatMap_map]
  apply flatMapCongr
  intro p hp
  have h1 : (toRow p).content_text = (⟨renderChunksL p.body⟩ : String) := rfl
  rw [h1, findQuotes_render p.body (hwf p hp)]
  unfold bodyAnnots
  rw [List.filterMap_filterMap]
  apply filterMapCongr
  intro ch _
  cases ch with
  | raw s => rfl
  | ann q =>
    by_cases hA : q.author = ""
    · simp [hA]
    · simp only [hA, ne_eq, not_false_eq_true, if_true, ite_true, Option.some_bind]
      rw [containsKey_postUserMap]
      by_cases h2 : q.author = p.username <;> cases exclude <;>
        simp [h2, hA, toRow, Function.comp]

instance (ch : Chunk) : Decidable (WFChunk ch) := by
  cases ch with
  | raw s => exact inferInstanceAs (Decidable (∀ c ∈ s.toList, c ≠ '<'))
  | ann q =>
    exact inferInstanceAs (Decidable ((∀ c ∈ q.author.toList, c ≠ '"') ∧
      (∀ c ∈ q.pid.toList, c.isDigit = true) ∧ (∀ c ∈ q.qbody.toList, c ≠ '<')))

/-- C1 counterexample: an annotation that follows the grammar but omits
the author attribute is invisible to `_QUOTE_RE` (the pattern requires
`author="..."`), so a post quoting post "1" via
`<quote post_id="1">hi</quote>` produces no edge even though "1" is in
the index and the self-quote condition cannot trigger (the quoted
author is empty) — the claim predicts one edge here for either value of
`excludeSelfQuotes`. -/
theorem extract_reply_edges_cex :
    containsKey (postUserMap [⟨"1", "alice", "x"⟩,
      ⟨"2", "bob", "<quote post_id=\"1\">hi</quote>"⟩]) "1" = true ∧
    extract_reply_edges [⟨"1", "alice", "x"⟩,
      ⟨"2", "bob", "<quote post_id=\"1\">hi</quote>"⟩] false = [] ∧
    extract_reply_edges [⟨"1", "alice", "x"⟩,
      ⟨"2", "bob", "<quote post_id=\"1\">hi</quote>"⟩] true = [] := by
  decide

/-- C1 (amended): over any collection of posts whose bodies interleave
well-formed plain text and grammar-conformant annotations, the edges
extracted by `extract_reply_edges` are exactly those predicted by the
specification restricted to annotations that carry a (nonempty) author
attribute: one edge per such annotation whose post_id is nonempty and
present in the post-id index of the whole collection, unless
excludeSelfQuotes holds and the annotation's author equals the quoting
post's author.  Annotations without an author attribute are ignored by
the extraction regex, contrary to the original claim. -/
theorem extract_reply_edges_claim_main (ps : List SpecPost) (exclude : Bool)
    (hwf : ∀ p ∈ ps, ∀ ch ∈ p.body, WFChunk ch) :
    extract_reply_edges (ps.map toRow) exclude = specEdges ps exclude :=
  extract_reply_edges_claim ps exclude hwf

/-- Witness for C1: the spec's own self-quote vector — a post by "bob"
quoting a block attributed to "bob" yields zero edges from that quote
when excludeSelfQuotes is true and one edge when false. -/
theorem extract_reply_edges_claim_w :
    extract_reply_edges ([⟨"1", "alice", [.raw "x"]⟩,
      ⟨"2", "bob", [.ann ⟨"bob", "1", "hi"⟩]⟩].map toRow) true = [] ∧
    extract_reply_edges ([⟨"1", "alice", [.raw "x"]⟩,
      ⟨"2", "bob", [.ann ⟨"bob", "1", "hi"⟩]⟩].map toRow) false
      = [⟨"2", "bob", "1", "bob"⟩] :=
  ⟨(extract_reply_edges_claim_main [⟨"1", "alice", [.raw "x"]⟩,
      ⟨"2", "bob", [.ann ⟨"bob", "1", "hi"⟩]⟩] true (by decide)).trans (by decide),
   (extract_reply_edges_claim_main [⟨"1", "alice", [.raw "x"]⟩,
      ⟨"2", "bob", [.ann ⟨"bob", "1", "hi"⟩]⟩] false (by decide)).trans (by decide)⟩

/-! C2: whitespace-normalization fixpoints and the quote-reconstruction order theorem. -/

theorem collSp_nil : collSp [] = [] := rfl

theorem collSp_words {x : List Char} (h : ∀ c ∈ x, isNNWS c = false) (y : List Char) :
    collSp (x ++ y) = x ++ collSp y := by
  induction x with
  | nil => rfl
  | cons c cs ih =>
    have hc : isNNWS c = false := h c (by simp)
    show collSp (c :: (cs ++ y)) = _
    rw [collSp, if_neg (by simp [hc])]
    rw [ih (fun d hd => h d (by simp [hd]))]
    rfl

theorem collSpSkip_words {x : List Char} (hne : x ≠ [])
    (h : ∀ c ∈ x, isNNWS c = false) (y : List Char) :
    collSpSkip (x ++ y) = x ++ collSp y := by
  cases x with
  | nil => exact absurd rfl hne
  | cons c cs =>
    have hc : isNNWS c = false := h c (by simp)
    show collSpSkip (c :: (cs ++ y)) = _
    rw [collSpSkip, if_neg (by simp [hc])]
    rw [collSp_words (fun d hd => h d (by simp [hd]))]
    rfl

theorem collSp_space (y : List Char) : collSp (' ' :: y) = ' ' :: collSpSkip y := by
  rw [collSp, if_pos (by decide)]

theorem collSp_nl (y : List Char) : collSp ('\n' :: y) = '\n' :: collSp y := by
  rw [collSp, if_neg (by decide)]

theorem collSpSkip_nl (y : List Char) : collSpSkip ('\n' :: y) = '\n' :: collSp y := by
  rw [collSpSkip, if_neg (by decide)]

theorem collNl0_nil : collNl0 [] = [] := rfl

theorem collNl0_words {x : List Char} (h : ∀ c ∈ x, c ≠ '\n') (y : List Char) :
    collNl0 (x ++ y) = x ++ collNl0 y := by
  induction x with
  | nil => rfl
  | cons c cs ih =>
    have hc : c ≠ '\n' := h c (by simp)
    show collNl0 (c :: (cs ++ y)) = _
    rw [collNl0, if_neg hc]
    rw [ih (fun d hd => h d (by simp [hd]))]
    rfl

theorem collNl0_nl (y : List Char) : collNl0 ('\n' :: y) = collNl1 y := by
  rw [collNl0, if_pos rfl]

theorem collNl1_cons {c : Char} (hc : c ≠ '\n') (y : List Char) :
    collNl1 (c :: y) = '\n' :: c :: collNl0 y := by
  rw [collNl1, if_neg hc]

theorem pyStrip_bounded (a c : Char) (mid : List Char)
    (ha : pyIsSpace a = false) (hc : pyIsSpace c = false) :
    pyStripL (a :: (mid ++ [c])) = a :: (mid ++ [c]) := by
  unfold pyStripL
  rw [List.dropWhile_cons_of_neg (by simp [ha])]
  have hrev : (a :: (mid ++ [c])).reverse = c :: (mid.reverse ++ [a]) := by simp
  rw [hrev, List.dropWhile_cons_of_neg (by simp [hc]), ← hrev, List.reverse_reverse]

theorem pyStrip_word {l : List Char} (h : ∀ c ∈ l, pyIsSpace c = false) :
    pyStripL l = l := by
  cases l with
  | nil => rfl
  | cons a t =>
    rcases List.eq_nil_or_concat t with rfl | ⟨mid, c, rfl⟩
    · unfold pyStripL
      rw [List.dropWhile_cons_of_neg (by simp [h a (by simp)])]
      simp [List.dropWhile_cons_of_neg, h a (by simp)]
    · rw [List.concat_eq_append]
      exact pyStrip_bounded a c mid (h a (by simp)) (h c (by simp [List.concat_eq_append]))

theorem nonws_nonl {c : Char} (h : pyIsSpace c = false) : c ≠ '\n' := by
  intro he
  rw [he] at h
  exact absurd h (by decide)

theorem nonws_nonnws {c : Char} (h : pyIsSpace c = false) : isNNWS c = false := by
  simp [isNNWS, h]

theorem collSp_word_fix {l : List Char} (h : ∀ c ∈ l, pyIsSpace c = false) :
    collSp l = l := by
  have h2 := collSp_words (x := l) (fun c hc => nonws_nonnws (h c hc)) []
  rw [List.append_nil, collSp_nil, List.append_nil] at h2
  exact h2

theorem normalize_word {l : List Char} (h : ∀ c ∈ l, pyIsSpace c = false) :
    normalizeL l = l := by
  unfold normalizeL nfcModel
  rw [collSp_word_fix h]
  have h2 := collNl0_words (x := l) (fun c hc => nonws_nonl (h c hc)) []
  simp only [List.append_nil, collNl0_nil] at h2
  rw [h2]
  exact pyStrip_word h

/-- Nonempty whitespace-free words joined by single spaces; the shape of
every replacement string `buildReplacementL` emits on word-formed
inputs. -/
def spWords : List (List Char) → List Char
  | [] => []
  | [w] => w
  | w :: ws => w ++ ' ' :: spWords ws

/-- Wellformedness of a word list. -/
def wordsOK (ws : List (List Char)) : Prop :=
  ∀ w ∈ ws, w ≠ [] ∧ ∀ c ∈ w, pyIsSpace c = false

theorem spWords_collSp (ws : List (List Char)) (h : wordsOK ws) (z : List Char) :
    collSp (spWords ws ++ z) = spWords ws ++ collSp z ∧
    (ws ≠ [] → collSpSkip (spWords ws ++ z) = spWords ws ++ collSp z) := by
  induction ws with
  | nil => exact ⟨rfl, fun h => absurd rfl h⟩
  | cons w ws ih =>
    obtain ⟨hwne, hwnws⟩ := h w (by simp)
    have hih := ih (fun v hv => h v (by simp [hv]))
    cases ws with
    | nil =>
      constructor
      · show collSp (w ++ z) = w ++ collSp z
        exact collSp_words (fun c hc => nonws_nonnws (hwnws c hc)) z
      · intro _
        show collSpSkip (w ++ z) = w ++ collSp z
        exact collSpSkip_words hwne (fun c hc => nonws_nonnws (hwnws c hc)) z
    | cons w' ws' =>
      have hmain : collSp ((w ++ ' ' :: spWords (w' :: ws')) ++ z)
          = (w ++ ' ' :: spWords (w' :: ws')) ++ collSp z := by
        rw [List.append_assoc]
        rw [collSp_words (fun c hc => nonws_nonnws (hwnws c hc))]
        show w ++ collSp (' ' :: (spWords (w' :: ws') ++ z)) = _
        rw [collSp_space, hih.2 (by simp)]
        simp [List.append_assoc]
      refine ⟨hmain, fun _ => ?_⟩
      show collSpSkip ((w ++ ' ' :: spWords (w' :: ws')) ++ z) = _
      rw [List.append_assoc]
      rw [collSpSkip_words hwne (fun c hc => nonws_nonnws (hwnws c hc))]
      show w ++ collSp (' ' :: (spWords (w' :: ws') ++ z)) = _
      rw [collSp_space, hih.2 (by simp)]
      rw [show spWords (w :: w' :: ws') = w ++ ' ' :: spWords (w' :: ws') from rfl]
      simp [List.append_assoc]

theorem spWords_no_nl (ws : List (List Char)) (h : wordsOK ws) :
    ∀ c ∈ spWords ws, c ≠ '\n' := by
  induction ws with
  | nil => intro c hc; simp [spWords] at hc
  | cons w ws ih =>
    have hw := h w (by simp)
    have hih := ih (fun v hv => h v (by simp [hv]))
    cases ws with
    | nil =>
      intro c hc
      exact nonws_nonl (hw.2 c hc)
    | cons w' ws' =>
      intro c hc
      show c ≠ '\n'
      rw [show spWords (w :: w' :: ws') = w ++ ' ' :: spWords (w' :: ws') from rfl] at hc
      rw [List.mem_append] at hc
      rcases hc with hc | hc
      · exact nonws_nonl (hw.2 c hc)
      · rw [List.mem_cons] at hc
        rcases hc with rfl | hc
        · decide
        · exact hih c hc

theorem spWords_ne_nil (ws : List (List Char)) (hne : ws ≠ []) (h : wordsOK ws) :
    spWords ws ≠ [] := by
  cases ws with
  | nil => exact absurd rfl hne
  | cons w ws' =>
    have hw := h w (by simp)
    cases ws' with
    | nil => exact hw.1
    | cons w' ws'' =>
      show w ++ ' ' :: spWords (w' :: ws'') ≠ []
      simp

theorem normalize_quote_shape (A C : List Char) (ws : List (List Char))
    (hAne : A ≠ []) (hAw : ∀ c ∈ A, pyIsSpace c = false)
    (hCne : C ≠ []) (hCw : ∀ c ∈ C, pyIsSpace c = false)
    (hwsne : ws ≠ []) (hws : wordsOK ws) :
    normalizeL (A ++ ' ' :: '\n' :: (spWords ws ++ '\n' :: ' ' :: C))
      = A ++ ' ' :: '\n' :: (spWords ws ++ '\n' :: ' ' :: C) := by
  unfold normalizeL nfcModel
  have hsp : collSp (A ++ ' ' :: '\n' :: (spWords ws ++ '\n' :: ' ' :: C))
      = A ++ ' ' :: '\n' :: (spWords ws ++ '\n' :: ' ' :: C) := by
    rw [collSp_words (fun c hc => nonws_nonnws (hAw c hc))]
    rw [collSp_space, collSpSkip_nl]
    rw [(spWords_collSp ws hws ('\n' :: ' ' :: C)).1]
    rw [collSp_nl, collSp_space]
    have hskipC := collSpSkip_words hCne (fun c hc => nonws_nonnws (hCw c hc)) []
    rw [List.append_nil, collSp_nil, List.append_nil] at hskipC
    rw [hskipC]
  rw [hsp]
  have hnl : collNl0 (A ++ ' ' :: '\n' :: (spWords ws ++ '\n' :: ' ' :: C))
      = A ++ ' ' :: '\n' :: (spWords ws ++ '\n' :: ' ' :: C) := by
    rw [collNl0_words (fun c hc => nonws_nonl (hAw c hc))]
    rw [show (' ' :: '\n' :: (spWords ws ++ '\n' :: ' ' :: C))
        = [' '] ++ ('\n' :: (spWords ws ++ '\n' :: ' ' :: C)) from rfl]
    rw [collNl0_words (by decide)]
    rw [collNl0_nl]
    cases hwrd : spWords ws with
    | nil => exact absurd hwrd (spWords_ne_nil ws hwsne hws)
    | cons r rs =>
      have hrne : r ≠ '\n' := by
        have := spWords_no_nl ws hws r (by rw [hwrd]; simp)
        exact this
      rw [show ((r :: rs) ++ '\n' :: ' ' :: C) = r :: (rs ++ '\n' :: ' ' :: C) from rfl]
      rw [collNl1_cons hrne]
      have hrsnl : ∀ c ∈ rs, c ≠ '\n' := by
        intro c hc
        exact spWords_no_nl ws hws c (by rw [hwrd]; simp [hc])
      rw [collNl0_words hrsnl]
      rw [collNl0_nl, collNl1_cons (by decide)]
      have hCnl := collNl0_words (fun c hc => nonws_nonl (hCw c hc)) ([] : List Char)
      rw [List.append_nil, collNl0_nil, List.append_nil] at hCnl
      rw [hCnl]
  rw [hnl]
  obtain ⟨a, A', rfl⟩ : ∃ a A', A = a :: A' := by
    cases A with
    | nil => exact absurd rfl hAne
    | cons a A' => exact ⟨a, A', rfl⟩
  obtain ⟨C', c, rfl⟩ : ∃ C' c, C = C' ++ [c] := by
    rcases List.eq_nil_or_concat C with rfl | ⟨C', c, rfl⟩
    · exact absurd rfl hCne
    · exact ⟨C', c, by simp⟩
  have hshape : (a :: A') ++ ' ' :: '\n' :: (spWords ws ++ '\n' :: ' ' :: (C' ++ [c]))
      = a :: ((A' ++ ' ' :: '\n' :: (spWords ws ++ '\n' :: ' ' :: C')) ++ [c]) := by
    simp
  rw [hshape]
  rw [pyStrip_bounded a c _ (hAw a (by simp)) (hCw c (by simp))]

theorem replaceAllAux_nomatch (pt rep : List Char) (y : List Char)
    (hy : ∀ c ∈ y, c ≠ '_') : ∀ f, replaceAllAux ('_' :: pt) rep f y = y := by
  induction y with
  | nil => intro f; cases f <;> rfl
  | cons c cs ih =>
    intro f
    cases f with
    | zero => rfl
    | succ f' =>
      have hm : matchLit ('_' :: pt) (c :: cs) = none := by
        simp [matchLit, hy c (by simp)]
      simp only [replaceAllAux, hm]
      rw [ih (fun d hd => hy d (by simp [hd])) f']

theorem replaceAllAux_skip (pt rep : List Char) (x : List Char)
    (hx : ∀ c ∈ x, c ≠ '_') (f : Nat) (y : List Char) :
    replaceAllAux ('_' :: pt) rep (x.length + f) (x ++ y)
      = x ++ replaceAllAux ('_' :: pt) rep f y := by
  induction x with
  | nil => simp
  | cons c cs ih =>
    have hm : matchLit ('_' :: pt) (c :: (cs ++ y)) = none := by
      simp [matchLit, hx c (by simp)]
    have hlen : (c :: cs).length + f = (cs.length + f) + 1 := by
      simp only [List.length_cons]; omega
    rw [hlen]
    show replaceAllAux ('_' :: pt) rep ((cs.length + f) + 1) (c :: (cs ++ y)) = _
    simp only [replaceAllAux, hm, List.cons_append]
    rw [ih (fun d hd => hx d (by simp [hd]))]

theorem replaceAllL_once (pt rep x z : List Char)
    (hx : ∀ c ∈ x, c ≠ '_') (hz : ∀ c ∈ z, c ≠ '_') :
    replaceAllL ('_' :: pt) rep (x ++ ('_' :: pt) ++ z) = x ++ rep ++ z := by
  unfold replaceAllL
  have hlen : (x ++ ('_' :: pt) ++ z).length = x.length + ((pt.length + z.length) + 1) := by
    simp only [List.length_append, List.length_cons]
    omega
  rw [hlen, List.append_assoc, replaceAllAux_skip pt rep x hx]
  have hm2 : matchLit ('_' :: pt) ('_' :: (pt ++ z)) = some z := by
    have := matchLit_self ('_' :: pt) z
    simpa using this
  show x ++ replaceAllAux ('_' :: pt) rep ((pt.length + z.length) + 1) ('_' :: (pt ++ z)) = _
  simp only [replaceAllAux, hm2]
  rw [replaceAllAux_nomatch pt rep z hz]
  simp [List.append_assoc]

theorem digit_nonws {c : Char} (h : c.isDigit = true) : pyIsSpace c = false := by
  by_contra hc
  rw [Bool.not_eq_false] at hc
  unfold pyIsSpace at hc
  simp only [Bool.or_eq_true, decide_eq_true_eq] at hc
  rcases hc with ((((rfl | rfl) | rfl) | rfl) | rfl) | rfl <;> exact absurd h (by decide)

theorem matchPostIdAt_digits (l ds : List Char) (h : matchPostIdAt l = some ds) :
    ∀ c ∈ ds, c.isDigit = true := by
  unfold matchPostIdAt at h
  cases hm : matchLit ['p', 'o', 's', 't', ':'] l with
  | none => rw [hm] at h; exact absurd h (by simp)
  | some r =>
    rw [hm] at h
    by_cases he : (r.dropWhile pyIsSpace).takeWhile Char.isDigit = []
    · simp [he] at h
    · simp [he] at h
      subst h
      intro c hc
      exact List.mem_takeWhile_imp hc

theorem postIdSearchAux_digits : ∀ f l ds, postIdSearchAux f l = some ds →
    ∀ c ∈ ds, c.isDigit = true := by
  intro f
  induction f with
  | zero => intro l ds h; exact absurd h (by simp [postIdSearchAux])
  | succ f' ih =>
    intro l ds h
    cases l with
    | nil => exact absurd h (by simp [postIdSearchAux])
    | cons c cs =>
      simp only [postIdSearchAux] at h
      cases hm : matchPostIdAt (c :: cs) with
      | some ds' =>
        rw [hm] at h
        simp only [Option.some.injEq] at h
        subst h
        exact matchPostIdAt_digits (c :: cs) ds' hm
      | none =>
        rw [hm] at h
        exact ih cs ds h

theorem findPostIdL_digits (l : List Char) : ∀ c ∈ findPostIdL l, c.isDigit = true := by
  unfold findPostIdL
  cases hs : postIdSearchAux l.length l with
  | none => simp
  | some ds =>
    simp only [Option.getD_some]
    exact postIdSearchAux_digits l.length l ds hs

theorem nonws_append {x y : List Char}
    (hx : ∀ c ∈ x, pyIsSpace c = false) (hy : ∀ c ∈ y, pyIsSpace c = false) :
    ∀ c ∈ x ++ y, pyIsSpace c = false := by
  intro c hc
  rw [List.mem_append] at hc
  rcases hc with hc | hc
  · exact hx c hc
  · exact hy c hc

/-- The `post_id="…"` attribute segment of the emitted annotation: present
exactly when `_POST_ID_RE` resolved a post id from `data-source`. -/
def pidAttrStr (src : String) : List Char :=
  if findPostIdL src.toList = [] then []
  else " post_id=\"".toList ++ findPostIdL src.toList ++ ['"']

theorem buildReplacement_shape (U1 src B : String)
    (hU : ∀ c ∈ U1.toList, pyIsSpace c = false)
    (hB : ∀ c ∈ B.toList, pyIsSpace c = false) :
    buildReplacementL U1 src B
      = "<quote".toList
        ++ (if U1.toList = [] then [] else " author=\"".toList ++ U1.toList ++ ['"'])
        ++ pidAttrStr src
        ++ '>' :: B.toList ++ "</quote>".toList := by
  simp only [buildReplacementL, pidAttrStr]
  rw [pyStrip_word hU, normalize_word hB]
  by_cases hu : U1.data = [] <;> by_cases hp : findPostIdL src.data = [] <;>
    simp [String.toList, hu, hp, List.intersperse, List.append_assoc]

theorem append_word_ne_nil {x y : List Char} (hx : x ≠ []) : x ++ y ≠ [] := by
  intro he
  rw [List.append_eq_nil] at he
  exact hx he.1

theorem buildReplacement_words (U1 src B : String)
    (hU : ∀ c ∈ U1.toList, pyIsSpace c = false)
    (hB : ∀ c ∈ B.toList, pyIsSpace c = false) :
    ∃ ws, ws ≠ [] ∧ wordsOK ws ∧ spWords ws = buildReplacementL U1 src B := by
  rw [buildReplacement_shape U1 src B hU hB]
  have hlitq : ∀ c ∈ "<quote".toList, pyIsSpace c = false := by decide
  have hlita : ∀ c ∈ "author=\"".toList, pyIsSpace c = false := by decide
  have hlitp : ∀ c ∈ "post_id=\"".toList, pyIsSpace c = false := by decide
  have hpidw : ∀ c ∈ findPostIdL src.toList, pyIsSpace c = false :=
    fun c hc => digit_nonws (findPostIdL_digits src.toList c hc)
  by_cases hu : U1.data = [] <;> by_cases hp : findPostIdL src.data = []
  · refine ⟨["<quote".toList ++ (['>'] ++ (B.toList ++ "</quote>".toList))], by simp, ?_, ?_⟩
    · intro v hv
      rw [List.mem_singleton] at hv
      subst hv
      exact ⟨append_word_ne_nil (by decide),
        nonws_append hlitq (nonws_append (by decide) (nonws_append hB (by decide)))⟩
    · rw [show spWords [("<quote".toList ++ (['>'] ++ (B.toList ++ "</quote>".toList)))]
        = "<quote".toList ++ (['>'] ++ (B.toList ++ "</quote>".toList)) from rfl]
      simp [String.toList, pidAttrStr, hu, hp, List.append_assoc]
  · refine ⟨["<quote".toList,
      "post_id=\"".toList ++ (findPostIdL src.toList ++ (['"', '>'] ++ (B.toList ++ "</quote>".toList)))],
      by simp, ?_, ?_⟩
    · intro v hv
      rw [List.mem_cons, List.mem_singleton] at hv
      rcases hv with rfl | rfl
      · exact ⟨by decide, hlitq⟩
      · exact ⟨append_word_ne_nil (by decide),
          nonws_append hlitp (nonws_append hpidw
            (nonws_append (by decide) (nonws_append hB (by decide))))⟩
    · rw [show spWords ["<quote".toList,
        "post_id=\"".toList ++ (findPostIdL src.toList ++ (['"', '>'] ++ (B.toList ++ "</quote>".toList)))]
        = "<quote".toList ++ ' ' ::
          ("post_id=\"".toList ++ (findPostIdL src.toList ++ (['"', '>'] ++ (B.toList ++ "</quote>".toList))))
        from rfl]
      simp [String.toList, pidAttrStr, hu, hp, List.append_assoc]
  · refine ⟨["<quote".toList,
      "author=\"".toList ++ (U1.toList ++ (['"', '>'] ++ (B.toList ++ "</quote>".toList)))],
      by simp, ?_, ?_⟩
    · intro v hv
      rw [List.mem_cons, List.mem_singleton] at hv
      rcases hv with rfl | rfl
      · exact ⟨by decide, hlitq⟩
      · exact ⟨append_word_ne_nil (by decide),
          nonws_append hlita (nonws_append hU
            (nonws_append (by decide) (nonws_append hB (by decide))))⟩
    · rw [show spWords ["<quote".toList,
        "author=\"".toList ++ (U1.toList ++ (['"', '>'] ++ (B.toList ++ "</quote>".toList)))]
        = "<quote".toList ++ ' ' ::
          ("author=\"".toList ++ (U1.toList ++ (['"', '>'] ++ (B.toList ++ "</quote>".toList))))
        from rfl]
      simp [String.toList, pidAttrStr, hu, hp, List.append_assoc]
  · refine ⟨["<quote".toList,
      "author=\"".toList ++ (U1.toList ++ ['"']),
      "post_id=\"".toList ++ (findPostIdL src.toList ++ (['"', '>'] ++ (B.toList ++ "</quote>".toList)))],
      by simp, ?_, ?_⟩
    · intro v hv
      rw [List.mem_cons, List.mem_cons, List.mem_singleton] at hv
      rcases hv with rfl | rfl | rfl
      · exact ⟨by decide, hlitq⟩
      · exact ⟨append_word_ne_nil (by decide),
          nonws_append hlita (nonws_append hU (by decide))⟩
      · exact ⟨append_word_ne_nil (by decide),
          nonws_append hlitp (nonws_append hpidw
            (nonws_append (by decide) (nonws_append hB (by decide))))⟩
    · rw [show spWords ["<quote".toList,
        "author=\"".toList ++ (U1.toList ++ ['"']),
        "post_id=\"".toList ++ (findPostIdL src.toList ++ (['"', '>'] ++ (B.toList ++ "</quote>".toList)))]
        = "<quote".toList ++ ' ' ::
          (("author=\"".toList ++ (U1.toList ++ ['"'])) ++ ' ' ::
            ("post_id=\"".toList ++ (findPostIdL src.toList ++ (['"', '>'] ++ (B.toList ++ "</quote>".toList)))))
        from rfl]
      simp [String.toList, pidAttrStr, hu, hp, List.append_assoc]

/-- C2: reading order is preserved by quote reconstruction.  A flat body
"A [quote by U1 from src]B[/quote] C" (surrounding text nonempty,
whitespace- and underscore-free; author and quoted text whitespace-free)
linearizes to A, a single space and newline, the inline annotation
`<quote author="U1" post_id="..">B</quote>` — the author attribute omitted
exactly when the stripped author is empty, the post_id attribute omitted
exactly when `_POST_ID_RE` resolves nothing from `src` — then a newline,
space and C, in that order: the quote block's text is replaced by the
sentinel `__QUOTE_PLACEHOLDER_0__`, the sentinel substituted by the
line-break-surrounded annotation, and the final `normalize_text`
(NFC + whitespace collapse + trim) leaves this shape intact. -/
theorem extract_content_claim (A U1 src B C : String)
    (hAne : A.toList ≠ []) (hAw : ∀ c ∈ A.toList, pyIsSpace c = false)
    (hAu : ∀ c ∈ A.toList, c ≠ '_')
    (hCne : C.toList ≠ []) (hCw : ∀ c ∈ C.toList, pyIsSpace c = false)
    (hCu : ∀ c ∈ C.toList, c ≠ '_')
    (hU : ∀ c ∈ U1.toList, pyIsSpace c = false)
    (hB : ∀ c ∈ B.toList, pyIsSpace c = false) :
    extract_content_with_quotes [BSeg.btext A, BSeg.bquote U1 src B, BSeg.btext C]
      = ⟨A.toList ++ ' ' :: '\n' ::
          (("<quote".toList
            ++ (if U1.toList = [] then [] else " author=\"".toList ++ U1.toList ++ ['"'])
            ++ pidAttrStr src
            ++ '>' :: B.toList ++ "</quote>".toList)
           ++ '\n' :: ' ' :: C.toList)⟩ := by
  obtain ⟨ws, hwsne, hwsOK, hspw⟩ := buildReplacement_words U1 src B hU hB
  have hpl : placeholderL 0 = '_' :: "_QUOTE_PLACEHOLDER_0__".toList := by decide
  have hraw : intercalateL [' ']
        (segPieces 0 [BSeg.btext A, BSeg.bquote U1 src B, BSeg.btext C])
      = (A.toList ++ [' ']) ++ ('_' :: "_QUOTE_PLACEHOLDER_0__".toList)
          ++ ([' '] ++ C.toList) := by
    simp [segPieces, intercalateL, hpl, List.append_assoc]
  have hx : ∀ c ∈ A.toList ++ [' '], c ≠ '_' := by
    intro c hc
    rw [List.mem_append, List.mem_singleton] at hc
    rcases hc with hc | rfl
    · exact hAu c hc
    · decide
  have hz : ∀ c ∈ [' '] ++ C.toList, c ≠ '_' := by
    intro c hc
    rw [List.mem_append, List.mem_singleton] at hc
    rcases hc with rfl | hc
    · decide
    · exact hCu c hc
  have hsub : substAllL 0 [buildReplacementL U1 src B]
        ((A.toList ++ [' ']) ++ ('_' :: "_QUOTE_PLACEHOLDER_0__".toList)
          ++ ([' '] ++ C.toList))
      = (A.toList ++ [' '])
          ++ ('\n' :: buildReplacementL U1 src B ++ ['\n'])
          ++ ([' '] ++ C.toList) := by
    simp only [substAllL]
    rw [hpl]
    exact replaceAllL_once "_QUOTE_PLACEHOLDER_0__".toList
      ('\n' :: buildReplacementL U1 src B ++ ['\n'])
      (A.toList ++ [' ']) ([' '] ++ C.toList) hx hz
  have hshape : (A.toList ++ [' '])
        ++ ('\n' :: buildReplacementL U1 src B ++ ['\n'])
        ++ ([' '] ++ C.toList)
      = A.toList ++ ' ' :: '\n' ::
        (buildReplacementL U1 src B ++ '\n' :: ' ' :: C.toList) := by
    simp [List.append_assoc]
  have hnorm := normalize_quote_shape A.toList C.toList ws hAne hAw hCne hCw hwsne hwsOK
  rw [hspw] at hnorm
  have hlist : normalizeL (substAllL 0
        ((quoteList [BSeg.btext A, BSeg.bquote U1 src B, BSeg.btext C]).map
          fun aq => buildReplacementL aq.1 aq.2.1 aq.2.2)
        (intercalateL [' ']
          (segPieces 0 [BSeg.btext A, BSeg.bquote U1 src B, BSeg.btext C])))
      = A.toList ++ ' ' :: '\n' ::
          (("<quote".toList
            ++ (if U1.toList = [] then [] else " author=\"".toList ++ U1.toList ++ ['"'])
            ++ pidAttrStr src
            ++ '>' :: B.toList ++ "</quote>".toList)
           ++ '\n' :: ' ' :: C.toList) := by
    rw [show (quoteList [BSeg.btext A, BSeg.bquote U1 src B, BSeg.btext C]).map
        (fun aq => buildReplacementL aq.1 aq.2.1 aq.2.2)
        = [buildReplacementL U1 src B] from rfl]
    rw [hraw, hsub, hshape, hnorm]
    rw [buildReplacement_shape U1 src B hU hB]
  exact congrArg String.mk hlist

theorem extract_content_claim_w :
    extract_content_with_quotes
        [BSeg.btext "Hello", BSeg.bquote "alice" "post: 123" "hi", BSeg.btext "bye"]
      = "Hello \n<quote author=\"alice\" post_id=\"123\">hi</quote>\n bye" := by
  have h := extract_content_claim "Hello" "alice" "post: 123" "hi" "bye"
    (by decide) (by decide) (by decide) (by decide) (by decide) (by decide)
    (by decide) (by decide)
  rw [h]
  decide
